import Mathlib

/-
Verification of the incremental synchronization engine of `subrepo-install`
(module `subrepoInstall` and its helpers, modelled from the current source
file of the repository).

External collaborators (git, pnpm, the filesystem) are modelled as oracles:
every piece of on-disk content below a sub-repository directory is a pure
function of the commit currently checked out there, and every remote query
is a pure function of the queried ref.  Each external command the engine
issues is recorded in an operation trace.
-/

set_option autoImplicit false

namespace SubrepoInstall

/-- A `string | Record` union, the shape of the `bin` field of a package
descriptor. -/
inductive StrOrMap where
  | str (s : String)
  | map (entries : List (String × String))
  deriving DecidableEq

/-- The fields of a package descriptor that the engine reads. -/
structure PackageJson where
  name : Option String := none
  bin : Option StrOrMap := none
  scripts : Option (List (String × String)) := none
  dependencies : Option (List (String × String)) := none
  devDependencies : Option (List (String × String)) := none
  deriving DecidableEq

/-- A package reference inside a `Subrepo` configuration: either a bare
relative path, or a pair of a local name override and a path. -/
inductive PkgRef where
  | bare (p : String)
  | named (n p : String)
  deriving DecidableEq

/-- The relative path of a package reference. -/
def PkgRef.path : PkgRef → String
  | .bare p => p
  | .named _ p => p

/-- The `rootPackageStrategy` enumeration. -/
inductive Strategy where
  | ignore
  | installOnly
  | default
  deriving DecidableEq

/-- One sub-repository configuration entry. -/
structure Subrepo where
  dir : String
  remote : String
  ref : Option String := none
  packages : List PkgRef := []
  rootPackageStrategy : Option Strategy := none
  workspaceOverride : Option String := none
  inheritDependencies : List String := []
  linkFiles : List (String × String) := []

/-- The persisted metadata file: an optional mapping from package key to the
last seen commit hash, with JSON key order preserved. -/
structure Metadata where
  heads : Option (List (String × String)) := none
  deriving DecidableEq

/-- First-match lookup in an ordered key-value list (JS object read). -/
def lookupKey : List (String × String) → String → Option String
  | [], _ => none
  | (k', v) :: rest, k => if k' = k then some v else lookupKey rest k

/-- JS object write: update the first occurrence of the key in place, or
append the pair at the end. -/
def setKey : List (String × String) → String → String → List (String × String)
  | [], k, v => [(k, v)]
  | (k', v') :: rest, k, v =>
    if k' = k then (k, v) :: rest else (k', v') :: setKey rest k v

/-- JS `delete` on an object key. -/
def eraseKey (l : List (String × String)) (k : String) : List (String × String) :=
  l.filter (fun e => e.1 ≠ k)

/-- JS truthiness of a string value. -/
def truthyStr (s : String) : Bool := decide (s ≠ "")

/-- JS truthiness of a possibly-undefined string value. -/
def truthyOpt : Option String → Bool
  | some s => decide (s ≠ "")
  | none => false

/-- `path.join` restricted to the shapes the engine uses: a `.` segment on
either side is normalized away, any other pair is joined with a slash. -/
def pathJoin (a b : String) : String :=
  if b = "." then a else if a = "." then b else a ++ "/" ++ b

/-- Matches the `/^[0-9a-f]$/` character class. -/
def isHexLower (c : Char) : Bool :=
  (decide ('0' ≤ c) && decide (c ≤ '9')) || (decide ('a' ≤ c) && decide (c ≤ 'f'))

/-- `isCommitHash`: the ref matches `/^[0-9a-f]\x7b40\x7d$/`. -/
def isCommitHash (r : String) : Bool :=
  r.length == 40 && r.data.all isHexLower

/-- Truthiness of `pkg.scripts?.build`. -/
def hasBuildScript (pkg : PackageJson) : Bool :=
  match pkg.scripts with
  | none => false
  | some l => truthyOpt (lookupKey l "build")

/-- Every external command the engine issues, in order. -/
inductive Op where
  | gitRevParseBranch (dir : String)
  | gitRevParseHead (dir : String)
  | gitLsRemote (dir r : String)
  | gitClone (remote dir : String)
  | gitFetch (dir r : String)
  | gitReset (dir : String)
  | gitLog (dir p : String)
  | pnpmInstall (dir : String) (noLockfile ignoreWorkspace : Bool)
  | pnpmBuild (dir : String)
  | symlink (src dst : String)
  | warnPkgRead (dir : String)
  | warnInherit (nm dir : String)
  | saveMetadata
  deriving DecidableEq

/-- The mutable state of one sub-repository working tree. -/
structure GitState where
  dirExists : Bool
  head : String
  branch : String
  deriving DecidableEq

/-- The oracles describing one sub-repository and its remote.  All on-disk
content below the directory is a function of the commit currently checked
out (`fileAt`, `pkgJson`, `subtreeHead` take that commit as first
argument). -/
structure RepoEnv where
  /-- Branch name checked out by a fresh default clone. -/
  defaultBranch : String
  /-- Commit checked out by a fresh default clone. -/
  defaultTip : String
  /-- Commit at which `git fetch --depth 1 origin ref` followed by
  `git reset --hard FETCH_HEAD` leaves the tree. -/
  refTip : String → String
  /-- Raw output of `git ls-remote origin ref`. -/
  lsRemote : String → String
  /-- Output of `git rev-parse HEAD` when the directory is a link to the
  workspace override path. -/
  overrideHead : String
  /-- `existsSync` on a path relative to the repo directory, as a function
  of the checked-out commit. -/
  fileAt : String → String → Bool
  /-- `readPackageJson` on a directory relative to the repo directory, as a
  function of the checked-out commit. -/
  pkgJson : String → String → Option PackageJson
  /-- `git log -n 1 --pretty=format:%H -- p`: hash of the last commit that
  touched the subtree `p`, as a function of the checked-out commit. -/
  subtreeHead : String → String → String
  /-- `path.relative(path.dirname(root), path.resolve(repo.dir))`. -/
  repoKeyPlain : String
  /-- `path.relative(path.dirname(root), path.resolve(repo.workspaceOverride))`. -/
  repoKeyOverride : String

/-- Process-wide context: the `pnpm root -w` answer and the prune oracle. -/
structure GEnv where
  /-- stdout of `pnpm root -w` (empty when not inside a workspace). -/
  workspaceRoot : String
  /-- `existsSync(path.join(path.dirname(root), pkgKey))`, the existence
  check used by the end-of-run prune. -/
  pruneKeep : String → Bool

/-- Result of the clone/fetch/reset phase for one sub-repository. -/
structure SyncOut where
  st : GitState
  head : String
  usedOverride : Bool
  tr : List Op

/-- Line 100: the ref to sync, either the configured one or the currently
checked out branch. -/
def resolvedRef (repo : Subrepo) (s : GitState) : String :=
  repo.ref.getD s.branch

/-- Lines 108-112: the commit the working tree is expected to sit at, either
the configured hash itself or the tip `ls-remote` reports for the ref. -/
def expectedHead (re : RepoEnv) (repo : Subrepo) (s : GitState) : String :=
  if isCommitHash (resolvedRef repo s) then resolvedRef repo s
  else (re.lsRemote (resolvedRef repo s)).take 40

/-- Lines 114-116: sync unless the local HEAD already equals the expected
commit. -/
def shouldUpdate (re : RepoEnv) (repo : Subrepo) (s : GitState) : Bool :=
  decide (s.head ≠ expectedHead re repo s)

/-- Lines 88-146 of the module: decide between the workspace override link,
no-op, fetch/reset, or clone, and read the resulting HEAD. -/
def syncRepo (g : GEnv) (re : RepoEnv) (repo : Subrepo) (s : GitState) : SyncOut :=
  if truthyStr g.workspaceRoot && truthyOpt repo.workspaceOverride then
    { st := s, head := re.overrideHead, usedOverride := true,
      tr := [.symlink repo.dir (repo.workspaceOverride.getD ""),
             .gitRevParseHead repo.dir] }
  else if s.dirExists then
    let refOps : List Op :=
      if repo.ref.isSome then [] else [.gitRevParseBranch repo.dir]
    let r := resolvedRef repo s
    let lsOps : List Op :=
      if isCommitHash r then [] else [.gitLsRemote repo.dir r]
    if shouldUpdate re repo s && truthyStr r then
      { st := { s with head := re.refTip r }, head := re.refTip r,
        usedOverride := false,
        tr := refOps ++ [.gitRevParseHead repo.dir] ++ lsOps ++
          [.gitFetch repo.dir r, .gitReset repo.dir, .gitRevParseHead repo.dir] }
    else
      { st := s, head := s.head, usedOverride := false,
        tr := refOps ++ [.gitRevParseHead repo.dir] ++ lsOps ++
          [.gitRevParseHead repo.dir] }
  else
    let s1 : GitState :=
      { dirExists := true, head := re.defaultTip, branch := re.defaultBranch }
    if truthyOpt repo.ref then
      let r := repo.ref.getD ""
      { st := { s1 with head := re.refTip r }, head := re.refTip r,
        usedOverride := false,
        tr := [.gitClone repo.remote repo.dir, .gitFetch repo.dir r,
               .gitReset repo.dir, .gitRevParseHead repo.dir] }
    else
      { st := s1, head := s1.head, usedOverride := false,
        tr := [.gitClone repo.remote repo.dir, .gitRevParseHead repo.dir] }

/-- The in-memory metadata, the persisted file, and the trace, threaded
through the per-package loop. -/
structure StepOut where
  meta : Metadata
  file : Metadata
  tr : List Op

/-- The install gate of lines 188-191: the package declares dependencies,
and for the root package no workspace override is in use, while for a
sub-package the repo root is not itself a workspace. -/
def installGate (ov : Bool) (re : RepoEnv) (head pkgFileName : String)
    (pkg : PackageJson) : Bool :=
  (pkg.dependencies.isSome || pkg.devDependencies.isSome) &&
    (if pkgFileName = "." then !ov else !(re.fileAt head "pnpm-workspace.yaml"))

/-- The gate of line 206: the unit is not the root package of an
`install-only` repo. -/
def notInstallOnlyRoot (strategy : Strategy) (pkgFileName : String) : Bool :=
  decide (pkgFileName ≠ ".") || decide (strategy ≠ Strategy.installOnly)

/-- Whether the per-package loop records a head for this unit
(`shouldTrackHead`). -/
def unitTrack (strategy : Strategy) (ov : Bool) (re : RepoEnv) (head : String)
    (pr : PkgRef) : Bool :=
  match re.pkgJson head pr.path with
  | none => false
  | some pkg =>
    installGate ov re head pr.path pkg ||
      (notInstallOnlyRoot strategy pr.path && hasBuildScript pkg)

/-- Lines 157-231 of the module, for a single package reference. -/
def processUnit (strategy : Strategy) (ov : Bool) (re : RepoEnv)
    (dir head repoKey : String) (pr : PkgRef) (st : StepOut) : StepOut :=
  let pkgFileName := pr.path
  let pkgDir := pathJoin dir pkgFileName
  match re.pkgJson head pkgFileName with
  | none => { st with tr := st.tr ++ [.warnPkgRead pkgDir] }
  | some pkg =>
    let pkgKey := pathJoin repoKey pkgFileName
    let pkgHead := re.subtreeHead head pkgFileName
    let changed :=
      decide (lookupKey (st.meta.heads.getD []) pkgKey ≠ some pkgHead)
    let pkgLocalName : Option String :=
      match pr with
      | .bare _ => pkg.name
      | .named n _ => some n
    let instGate := installGate ov re head pkgFileName pkg
    let gate2 := notInstallOnlyRoot strategy pkgFileName
    let bld := gate2 && hasBuildScript pkg
    let track := instGate || bld
    let installOps : List Op :=
      if instGate && changed then
        [.pnpmInstall pkgDir
          (!(re.fileAt head (pathJoin pkgFileName "pnpm-lock.yaml")))
          ((!(re.fileAt head "pnpm-workspace.yaml")) &&
            (!(re.fileAt head (pathJoin pkgFileName "pnpm-workspace.yaml"))))]
      else []
    let buildOps : List Op := if bld && changed then [.pnpmBuild pkgDir] else []
    let linkOps : List Op :=
      if gate2 && truthyOpt pkgLocalName then
        [.symlink (pathJoin "node_modules" (pkgLocalName.getD "")) pkgDir]
      else []
    let meta' : Metadata :=
      if track then ⟨some (setKey (st.meta.heads.getD []) pkgKey pkgHead)⟩
      else st.meta
    let file' := if track && changed then meta' else st.file
    let saveOps : List Op := if track && changed then [Op.saveMetadata] else []
    { meta := meta', file := file',
      tr := st.tr ++ [.gitLog dir pkgFileName] ++ installOps ++ buildOps ++
        linkOps ++ saveOps }

/-- The per-package loop of lines 157-231 over a list of package references. -/
def foldUnits (strategy : Strategy) (ov : Bool) (re : RepoEnv)
    (dir head repoKey : String) (prs : List PkgRef) (st : StepOut) : StepOut :=
  prs.foldl (fun st pr => processUnit strategy ov re dir head repoKey pr st) st

/-- The unit list of lines 151-157: the root package reference (unless the
strategy is `ignore` or no root descriptor file exists) followed by the
configured package references. -/
def unitRefs (strategy : Strategy) (re : RepoEnv) (head : String)
    (repo : Subrepo) : List PkgRef :=
  (if strategy ≠ Strategy.ignore ∧ re.fileAt head "package.json" = true
    then [PkgRef.bare "."] else []) ++ repo.packages

/-- Lines 233-262: inherit one dependency of the sub-repository. -/
def inheritDep (re : RepoEnv) (head dir nm : String) : List Op :=
  let rel := pathJoin "node_modules" nm
  let targetDir := pathJoin dir rel
  match re.pkgJson head rel with
  | none => [.warnInherit nm dir]
  | some tp =>
    [.symlink rel targetDir] ++
      (match tp.bin with
      | some (.str b) =>
        match tp.name with
        | some n =>
          if n = "" then []
          else [.symlink (pathJoin "node_modules/.bin" n) (pathJoin targetDir b)]
        | none => []
      | some (.map entries) =>
        entries.map
          (fun e => .symlink (pathJoin "node_modules/.bin" e.1) (pathJoin targetDir e.2))
      | none => [])

/-- Lines 264-266: the extra `linkFiles` symlinks. -/
def linkFileOps (dir : String) (lfs : List (String × String)) : List Op :=
  lfs.map (fun e => .symlink e.1 (pathJoin dir e.2))

/-- One configured sub-repository together with its oracles and the current
state of its working tree. -/
structure RepoInst where
  spec : Subrepo
  env : RepoEnv
  git : GitState

/-- Result of one full iteration of the repo loop. -/
structure RepoOut where
  git : GitState
  meta : Metadata
  file : Metadata
  tr : List Op

/-- The `repoKey` of lines 143-146, as selected by the override flag. -/
def usedRepoKey (so : SyncOut) (re : RepoEnv) : String :=
  if so.usedOverride then re.repoKeyOverride else re.repoKeyPlain

/-- One full iteration of the loop over `repos` (lines 88-267). -/
def processRepo (g : GEnv) (inst : RepoInst) (meta file : Metadata) : RepoOut :=
  let so := syncRepo g inst.env inst.spec inst.git
  let strategy := inst.spec.rootPackageStrategy.getD .default
  let rk := usedRepoKey so inst.env
  let st0 : StepOut := { meta := meta, file := file, tr := so.tr }
  let st1 := foldUnits strategy so.usedOverride inst.env inst.spec.dir so.head rk
    (unitRefs strategy inst.env so.head inst.spec) st0
  let inh :=
    (inst.spec.inheritDependencies.map (inheritDep inst.env so.head inst.spec.dir)).flatten
  { git := so.st, meta := st1.meta, file := st1.file,
    tr := st1.tr ++ inh ++ linkFileOps inst.spec.dir inst.spec.linkFiles }

/-- Result of a whole engine run. -/
structure RunOut where
  states : List GitState
  meta : Metadata
  file : Metadata
  tr : List Op

/-- Lines 271-279: drop every previously persisted key whose on-disk path no
longer exists. -/
def pruneHeads (g : GEnv) (prev l : List (String × String)) :
    List (String × String) :=
  prev.foldl (fun acc e => if g.pruneKeep e.1 then acc else eraseKey acc e.1) l

/-- The loop over all configured sub-repositories. -/
def runRepos (g : GEnv) (insts : List RepoInst) (meta file : Metadata) : RunOut :=
  match insts with
  | [] => { states := [], meta := meta, file := file, tr := [] }
  | inst :: rest =>
    let ro := processRepo g inst meta file
    let rr := runRepos g rest ro.meta ro.file
    { states := ro.git :: rr.states, meta := rr.meta, file := rr.file,
      tr := ro.tr ++ rr.tr }

/-- The whole `subrepoInstall` run: read the metadata file, process every
sub-repository, then prune stale keys and save once more (lines 72-282). -/
def runOnce (g : GEnv) (insts : List RepoInst) (file0 : Metadata) : RunOut :=
  let prev := file0.heads.getD []
  let rr := runRepos g insts file0 file0
  match rr.meta.heads with
  | some l =>
    let m' : Metadata := ⟨some (pruneHeads g prev l)⟩
    { rr with meta := m', file := m', tr := rr.tr ++ [.saveMetadata] }
  | none => rr

/-- Re-run the engine over the same configuration, starting from the git
states a previous run left behind. -/
def reseed (insts : List RepoInst) (states : List GitState) : List RepoInst :=
  insts.zipWith (fun inst s => { inst with git := s }) states

/-- The operations the idempotence property counts: clone, fetch, reset,
install and build. -/
def isHeavyOp : Op → Bool
  | .gitClone _ _ => true
  | .gitFetch _ _ => true
  | .gitReset _ => true
  | .pnpmInstall _ _ _ => true
  | .pnpmBuild _ => true
  | _ => false

/-- Coherence of the remote oracles: fetching a full commit hash lands on
that commit, fetching any other ref lands on the tip `ls-remote` reports,
and a fresh default clone lands on the tip of the default branch, whose
name is not itself a commit hash. -/
def RepoEnv.coherent (re : RepoEnv) : Prop :=
  (∀ r, isCommitHash r = true → re.refTip r = r) ∧
  (∀ r, isCommitHash r = false → re.refTip r = (re.lsRemote r).take 40) ∧
  isCommitHash re.defaultBranch = false ∧
  (re.lsRemote re.defaultBranch).take 40 = re.defaultTip

/-- The metadata key of a package unit. -/
def unitKey (rk : String) (pr : PkgRef) : String := pathJoin rk pr.path

/-- The head recorded for a package unit: the hash of the last commit that
touched its own subtree. -/
def unitVal (re : RepoEnv) (head : String) (pr : PkgRef) : String :=
  re.subtreeHead head pr.path

/-- The `pkgHeadChanged` test of line 181 for a unit against a metadata
value. -/
def unitChanged (re : RepoEnv) (head rk : String) (pr : PkgRef) (m : Metadata) :
    Bool :=
  decide (lookupKey (m.heads.getD []) (unitKey rk pr) ≠ some (unitVal re head pr))

/-- The sync phase of a configured sub-repository instance. -/
def instSync (g : GEnv) (inst : RepoInst) : SyncOut :=
  syncRepo g inst.env inst.spec inst.git

/-- The effective root package strategy of an instance. -/
def instStrategy (inst : RepoInst) : Strategy :=
  inst.spec.rootPackageStrategy.getD .default

/-- The post-sync HEAD of an instance. -/
def instHead (g : GEnv) (inst : RepoInst) : String := (instSync g inst).head

/-- Whether the instance used the workspace override. -/
def instOv (g : GEnv) (inst : RepoInst) : Bool := (instSync g inst).usedOverride

/-- The `repoKey` selected for an instance. -/
def instKeyUsed (g : GEnv) (inst : RepoInst) : String :=
  usedRepoKey (instSync g inst) inst.env

/-- The package units processed for an instance. -/
def instUnits (g : GEnv) (inst : RepoInst) : List PkgRef :=
  unitRefs (instStrategy inst) inst.env (instHead g inst) inst.spec

/-- Whether an instance records a head for a unit. -/
def instUTrack (g : GEnv) (inst : RepoInst) (pr : PkgRef) : Bool :=
  unitTrack (instStrategy inst) (instOv g inst) inst.env (instHead g inst) pr

/-- The metadata key an instance uses for a unit. -/
def instUKey (g : GEnv) (inst : RepoInst) (pr : PkgRef) : String :=
  unitKey (instKeyUsed g inst) pr

/-- The head value an instance records for a unit. -/
def instUVal (g : GEnv) (inst : RepoInst) (pr : PkgRef) : String :=
  unitVal inst.env (instHead g inst) pr

/-- Fetch or hard-reset operations. -/
def isFetchOrReset : Op → Bool
  | .gitFetch _ _ => true
  | .gitReset _ => true
  | _ => false

/-- A remote-ref query. -/
def isLsRemote : Op → Bool
  | .gitLsRemote _ _ => true
  | _ => false

/-- A dependency installation. -/
def isInstallOp : Op → Bool
  | .pnpmInstall _ _ _ => true
  | _ => false

/-- A build invocation. -/
def isBuildOp : Op → Bool
  | .pnpmBuild _ => true
  | _ => false

/-! ### Ordered key-value maps -/

theorem lookupKey_setKey_self (l : List (String × String)) (k v : String) :
    lookupKey (setKey l k v) k = some v := by
  induction l with
  | nil => simp [setKey, lookupKey]
  | cons e rest ih =>
    obtain ⟨k', v'⟩ := e
    by_cases h : k' = k
    · simp [setKey, h, lookupKey]
    · simp [setKey, h, lookupKey, ih]

theorem lookupKey_setKey_ne (l : List (String × String)) (k k' v : String)
    (h : k' ≠ k) : lookupKey (setKey l k v) k' = lookupKey l k' := by
  have hkk : ¬(k = k') := fun he => h he.symm
  induction l with
  | nil => simp [setKey, lookupKey, hkk]
  | cons e rest ih =>
    obtain ⟨k₀, v₀⟩ := e
    by_cases h0 : k₀ = k
    · subst h0
      simp [setKey, lookupKey, hkk]
    · simp [setKey, h0, lookupKey, ih]

theorem setKey_of_lookup (l : List (String × String)) (k v : String)
    (h : lookupKey l k = some v) : setKey l k v = l := by
  induction l with
  | nil => simp [lookupKey] at h
  | cons e rest ih =>
    obtain ⟨k₀, v₀⟩ := e
    by_cases h0 : k₀ = k
    · subst h0
      simp [lookupKey] at h
      simp [setKey, h]
    · simp [lookupKey, h0] at h
      simp [setKey, h0, ih h]

theorem lookupKey_mem (l : List (String × String)) (k v : String)
    (h : lookupKey l k = some v) : (k, v) ∈ l := by
  induction l with
  | nil => simp [lookupKey] at h
  | cons e rest ih =>
    obtain ⟨k₀, v₀⟩ := e
    by_cases h0 : k₀ = k
    · subst h0
      simp [lookupKey] at h
      simp [h]
    · simp [lookupKey, h0] at h
      simp [ih h]

theorem eraseKey_cons (k₀ v₀ : String) (rest : List (String × String))
    (k : String) :
    eraseKey ((k₀, v₀) :: rest) k =
      if k₀ = k then eraseKey rest k else (k₀, v₀) :: eraseKey rest k := by
  by_cases h : k₀ = k <;> simp [eraseKey, List.filter_cons, h]

theorem eraseKey_lookup_self (l : List (String × String)) (k : String) :
    lookupKey (eraseKey l k) k = none := by
  induction l with
  | nil => rfl
  | cons e rest ih =>
    obtain ⟨k₀, v₀⟩ := e
    rw [eraseKey_cons]
    by_cases h0 : k₀ = k
    · simp [h0, ih]
    · simp [lookupKey, h0, ih]

theorem eraseKey_lookup_ne (l : List (String × String)) (k k' : String)
    (h : k' ≠ k) : lookupKey (eraseKey l k) k' = lookupKey l k' := by
  have hkk : ¬(k = k') := fun he => h he.symm
  induction l with
  | nil => rfl
  | cons e rest ih =>
    obtain ⟨k₀, v₀⟩ := e
    rw [eraseKey_cons]
    by_cases h0 : k₀ = k
    · simp [h0, lookupKey, hkk, ih]
    · simp [h0, lookupKey, ih]

/-! ### Path lemmas -/

theorem pathJoin_dot_right (a : String) : pathJoin a "." = a := by
  simp [pathJoin]

theorem pathJoin_dot_left (b : String) : pathJoin "." b = b := by
  by_cases hb : b = "." <;> simp [pathJoin, hb]

theorem pathJoin_ne_base (a b : String) (hb : b ≠ ".") : pathJoin a b ≠ a := by
  by_cases ha : a = "."
  · subst ha
    simpa [pathJoin_dot_left] using hb
  · intro h
    have h2 := congrArg String.length h
    rw [pathJoin, if_neg hb, if_neg ha, String.length_append,
      String.length_append] at h2
    have h1 : ("/" : String).length = 1 := rfl
    omega

theorem string_append_left_cancel (a x y : String) (h : a ++ x = a ++ y) :
    x = y := by
  have hd : (a ++ x).data = (a ++ y).data := congrArg String.data h
  simp only [String.data_append] at hd
  exact String.ext (List.append_cancel_left hd)

theorem pathJoin_left_cancel (a x y : String) (h : pathJoin a x = pathJoin a y) :
    x = y := by
  by_cases ha : a = "."
  · subst ha
    simpa [pathJoin_dot_left] using h
  · by_cases hx : x = "."
    · by_cases hy : y = "."
      · rw [hx, hy]
      · exfalso
        rw [hx, pathJoin_dot_right] at h
        exact pathJoin_ne_base a y hy h.symm
    · by_cases hy : y = "."
      · exfalso
        rw [hy, pathJoin_dot_right] at h
        exact pathJoin_ne_base a x hx h
      · simp only [pathJoin, hx, hy, ha, if_neg, if_false] at h
        exact string_append_left_cancel (a ++ "/") x y h

/-! ### Per-unit lemmas -/

theorem processUnit_none (strategy : Strategy) (ov : Bool) (re : RepoEnv)
    (dir head rk : String) (pr : PkgRef) (st : StepOut)
    (hbad : re.pkgJson head pr.path = none) :
    processUnit strategy ov re dir head rk pr st =
      { st with tr := st.tr ++ [.warnPkgRead (pathJoin dir pr.path)] } := by
  simp [processUnit, hbad]

theorem unitTrack_some (strategy : Strategy) (ov : Bool) (re : RepoEnv)
    (head : String) (pr : PkgRef) (pkg : PackageJson)
    (hpkg : re.pkgJson head pr.path = some pkg) :
    unitTrack strategy ov re head pr =
      (installGate ov re head pr.path pkg ||
        (notInstallOnlyRoot strategy pr.path && hasBuildScript pkg)) := by
  simp [unitTrack, hpkg]

theorem processUnit_meta (strategy : Strategy) (ov : Bool) (re : RepoEnv)
    (dir head rk : String) (pr : PkgRef) (st : StepOut) :
    (processUnit strategy ov re dir head rk pr st).meta =
      if unitTrack strategy ov re head pr then
        (⟨some (setKey (st.meta.heads.getD []) (unitKey rk pr) (unitVal re head pr))⟩ : Metadata)
      else st.meta := by
  cases hpkg : re.pkgJson head pr.path with
  | none => simp [processUnit, hpkg, unitTrack]
  | some pkg => simp [processUnit, hpkg, unitTrack, unitKey, unitVal]

theorem processUnit_file (strategy : Strategy) (ov : Bool) (re : RepoEnv)
    (dir head rk : String) (pr : PkgRef) (st : StepOut) :
    (processUnit strategy ov re dir head rk pr st).file =
      if unitTrack strategy ov re head pr && unitChanged re head rk pr st.meta then
        (processUnit strategy ov re dir head rk pr st).meta
      else st.file := by
  cases hpkg : re.pkgJson head pr.path with
  | none => simp [processUnit, hpkg, unitTrack]
  | some pkg =>
    simp [processUnit, hpkg, unitTrack, unitChanged, unitKey, unitVal]

theorem processUnit_tr_shift (strategy : Strategy) (ov : Bool) (re : RepoEnv)
    (dir head rk : String) (pr : PkgRef) (m f : Metadata) (t : List Op) :
    processUnit strategy ov re dir head rk pr ⟨m, f, t⟩ =
      ⟨(processUnit strategy ov re dir head rk pr ⟨m, f, []⟩).meta,
       (processUnit strategy ov re dir head rk pr ⟨m, f, []⟩).file,
       t ++ (processUnit strategy ov re dir head rk pr ⟨m, f, []⟩).tr⟩ := by
  cases hpkg : re.pkgJson head pr.path <;> simp [processUnit, hpkg]

theorem processUnit_meta_stable (strategy : Strategy) (ov : Bool) (re : RepoEnv)
    (dir head rk : String) (pr : PkgRef) (st : StepOut)
    (hlk : unitTrack strategy ov re head pr = true →
      lookupKey (st.meta.heads.getD []) (unitKey rk pr) = some (unitVal re head pr)) :
    (processUnit strategy ov re dir head rk pr st).meta = st.meta := by
  rw [processUnit_meta]
  cases htr : unitTrack strategy ov re head pr with
  | false => rfl
  | true =>
    have hl := hlk htr
    cases hm : st.meta.heads with
    | none => simp [hm, lookupKey] at hl
    | some l =>
      rw [hm] at hl
      simp only [hm, Option.getD_some] at hl ⊢
      rw [setKey_of_lookup l _ _ (by simpa using hl)]
      cases hmeta : st.meta with
      | mk heads => simp_all

theorem unitChanged_false (re : RepoEnv) (head rk : String) (pr : PkgRef)
    (m : Metadata)
    (hl : lookupKey (m.heads.getD []) (unitKey rk pr) = some (unitVal re head pr)) :
    unitChanged re head rk pr m = false := by
  simp [unitChanged, hl]

theorem processUnit_file_stable (strategy : Strategy) (ov : Bool) (re : RepoEnv)
    (dir head rk : String) (pr : PkgRef) (st : StepOut)
    (hlk : unitTrack strategy ov re head pr = true →
      lookupKey (st.meta.heads.getD []) (unitKey rk pr) = some (unitVal re head pr)) :
    (processUnit strategy ov re dir head rk pr st).file = st.file := by
  rw [processUnit_file]
  cases htr : unitTrack strategy ov re head pr with
  | false => rfl
  | true =>
    rw [unitChanged_false re head rk pr st.meta (hlk htr)]
    simp

theorem processUnit_lookup_ne (strategy : Strategy) (ov : Bool) (re : RepoEnv)
    (dir head rk : String) (pr : PkgRef) (st : StepOut) (k : String)
    (hk : k ≠ unitKey rk pr) :
    lookupKey ((processUnit strategy ov re dir head rk pr st).meta.heads.getD []) k =
      lookupKey (st.meta.heads.getD []) k := by
  rw [processUnit_meta]
  cases htr : unitTrack strategy ov re head pr with
  | false => rfl
  | true => simp [lookupKey_setKey_ne _ _ _ _ hk]

theorem processUnit_lookup_self (strategy : Strategy) (ov : Bool) (re : RepoEnv)
    (dir head rk : String) (pr : PkgRef) (st : StepOut)
    (htr : unitTrack strategy ov re head pr = true) :
    lookupKey ((processUnit strategy ov re dir head rk pr st).meta.heads.getD [])
      (unitKey rk pr) = some (unitVal re head pr) := by
  rw [processUnit_meta, htr]
  simp [lookupKey_setKey_self]

theorem processUnit_light (strategy : Strategy) (ov : Bool) (re : RepoEnv)
    (dir head rk : String) (pr : PkgRef) (st : StepOut)
    (h : (unitTrack strategy ov re head pr && unitChanged re head rk pr st.meta) = false) :
    ∀ op ∈ (processUnit strategy ov re dir head rk pr st).tr,
      op ∈ st.tr ∨ isHeavyOp op = false := by
  intro op hop
  cases hpkg : re.pkgJson head pr.path with
  | none =>
    rw [processUnit_none _ _ _ _ _ _ _ _ hpkg] at hop
    simp only [List.mem_append, List.mem_singleton] at hop
    rcases hop with hop | hop
    · exact Or.inl hop
    · subst hop
      exact Or.inr rfl
  | some pkg =>
    rw [unitTrack_some strategy ov re head pr pkg hpkg] at h
    simp only [unitChanged, unitKey, unitVal] at h
    simp only [processUnit, hpkg] at hop
    rcases Bool.and_eq_false_iff.mp h with h | h
    · -- neither gate fires: no install, build or save ops are emitted
      have hg : installGate ov re head pr.path pkg = false := by
        cases hx : installGate ov re head pr.path pkg
        · rfl
        · rw [hx] at h
          simp at h
      have hb : (notInstallOnlyRoot strategy pr.path && hasBuildScript pkg) = false := by
        cases hx : (notInstallOnlyRoot strategy pr.path && hasBuildScript pkg)
        · rfl
        · rw [hx] at h
          simp at h
      simp only [hg, hb, Bool.false_and, Bool.or_self, if_neg Bool.false_ne_true,
        List.append_nil, List.mem_append] at hop
      rcases hop with (hop | hop) | hop
      · exact Or.inl hop
      · simp only [List.mem_singleton] at hop
        subst hop
        exact Or.inr rfl
      · right
        split at hop
        · simp only [List.mem_singleton] at hop
          subst hop
          rfl
        · simp at hop
    · -- head unchanged: no install, build or save ops are emitted
      simp only [h, Bool.and_false, if_neg Bool.false_ne_true,
        List.append_nil, List.mem_append] at hop
      rcases hop with (hop | hop) | hop
      · exact Or.inl hop
      · simp only [List.mem_singleton] at hop
        subst hop
        exact Or.inr rfl
      · right
        split at hop
        · simp only [List.mem_singleton] at hop
          subst hop
          rfl
        · simp at hop

/-! ### Fold lemmas for the per-package loop -/

theorem foldUnits_cons (strategy : Strategy) (ov : Bool) (re : RepoEnv)
    (dir head rk : String) (pr : PkgRef) (prs : List PkgRef) (st : StepOut) :
    foldUnits strategy ov re dir head rk (pr :: prs) st =
      foldUnits strategy ov re dir head rk prs
        (processUnit strategy ov re dir head rk pr st) := rfl

theorem foldUnits_lookup_preserve (strategy : Strategy) (ov : Bool)
    (re : RepoEnv) (dir head rk : String) (prs : List PkgRef) (st : StepOut)
    (k v : String)
    (hw : ∀ pr ∈ prs, unitKey rk pr = k → unitVal re head pr = v)
    (hl : lookupKey (st.meta.heads.getD []) k = some v) :
    lookupKey ((foldUnits strategy ov re dir head rk prs st).meta.heads.getD []) k
      = some v := by
  induction prs generalizing st with
  | nil => exact hl
  | cons pr rest ih =>
    rw [foldUnits_cons]
    apply ih _ (fun p hp => hw p (List.mem_cons_of_mem _ hp))
    by_cases hk : k = unitKey rk pr
    · rw [processUnit_meta]
      cases htr : unitTrack strategy ov re head pr with
      | false => exact hl
      | true =>
        have hv := hw pr (List.mem_cons_self _ _) hk.symm
        rw [hk]
        simp [lookupKey_setKey_self, hv]
    · rw [processUnit_lookup_ne strategy ov re dir head rk pr st k hk]
      exact hl

theorem foldUnits_sat (strategy : Strategy) (ov : Bool) (re : RepoEnv)
    (dir head rk : String) (prs : List PkgRef) (st : StepOut) :
    ∀ pr ∈ prs, unitTrack strategy ov re head pr = true →
      lookupKey ((foldUnits strategy ov re dir head rk prs st).meta.heads.getD [])
        (unitKey rk pr) = some (unitVal re head pr) := by
  induction prs generalizing st with
  | nil =>
    intro pr h
    simp at h
  | cons pr0 rest ih =>
    intro pr hmem htr
    rcases List.mem_cons.mp hmem with he | hm
    · subst he
      rw [foldUnits_cons]
      apply foldUnits_lookup_preserve
      · intro p _ hk
        have hpath := pathJoin_left_cancel rk p.path pr.path hk
        unfold unitVal
        rw [hpath]
      · exact processUnit_lookup_self strategy ov re dir head rk pr st htr
    · exact ih (processUnit strategy ov re dir head rk pr0 st) pr hm htr

theorem foldUnits_stable (strategy : Strategy) (ov : Bool) (re : RepoEnv)
    (dir head rk : String) (prs : List PkgRef) (st : StepOut)
    (hs : ∀ pr ∈ prs, unitTrack strategy ov re head pr = true →
      lookupKey (st.meta.heads.getD []) (unitKey rk pr) = some (unitVal re head pr)) :
    (foldUnits strategy ov re dir head rk prs st).meta = st.meta ∧
    (foldUnits strategy ov re dir head rk prs st).file = st.file ∧
    ∀ op ∈ (foldUnits strategy ov re dir head rk prs st).tr,
      op ∈ st.tr ∨ isHeavyOp op = false := by
  induction prs generalizing st with
  | nil => exact ⟨rfl, rfl, fun op hop => Or.inl hop⟩
  | cons pr rest ih =>
    have hs0 := hs pr (List.mem_cons_self _ _)
    have hm1 := processUnit_meta_stable strategy ov re dir head rk pr st hs0
    have hf1 := processUnit_file_stable strategy ov re dir head rk pr st hs0
    obtain ⟨hm2, hf2, ht2⟩ := ih (processUnit strategy ov re dir head rk pr st)
      (by
        intro p hp htr
        rw [hm1]
        exact hs p (List.mem_cons_of_mem _ hp) htr)
    rw [foldUnits_cons]
    refine ⟨hm2.trans hm1, hf2.trans hf1, ?_⟩
    intro op hop
    rcases ht2 op hop with h | h
    · have hch : (unitTrack strategy ov re head pr &&
          unitChanged re head rk pr st.meta) = false := by
        cases htr : unitTrack strategy ov re head pr with
        | false => rfl
        | true =>
          rw [unitChanged_false re head rk pr st.meta (hs0 htr)]
          rfl
      exact processUnit_light strategy ov re dir head rk pr st hch op h
    · exact Or.inr h

theorem foldUnits_lookup_other (strategy : Strategy) (ov : Bool) (re : RepoEnv)
    (dir head rk : String) (prs : List PkgRef) (st : StepOut) (k : String)
    (hk : ∀ pr ∈ prs, k ≠ unitKey rk pr) :
    lookupKey ((foldUnits strategy ov re dir head rk prs st).meta.heads.getD []) k
      = lookupKey (st.meta.heads.getD []) k := by
  induction prs generalizing st with
  | nil => rfl
  | cons pr rest ih =>
    rw [foldUnits_cons,
      ih (processUnit strategy ov re dir head rk pr st)
        (fun p hp => hk p (List.mem_cons_of_mem _ hp)),
      processUnit_lookup_ne strategy ov re dir head rk pr st k
        (hk pr (List.mem_cons_self _ _))]

theorem foldUnits_heads_none (strategy : Strategy) (ov : Bool) (re : RepoEnv)
    (dir head rk : String) (prs : List PkgRef) (st : StepOut)
    (hn : (foldUnits strategy ov re dir head rk prs st).meta.heads = none) :
    (foldUnits strategy ov re dir head rk prs st).meta = st.meta ∧
    (foldUnits strategy ov re dir head rk prs st).file = st.file := by
  induction prs generalizing st with
  | nil => exact ⟨rfl, rfl⟩
  | cons pr rest ih =>
    rw [foldUnits_cons] at hn ⊢
    obtain ⟨hm, hf⟩ := ih (processUnit strategy ov re dir head rk pr st) hn
    have h1 : (processUnit strategy ov re dir head rk pr st).meta.heads = none := by
      rw [hm] at hn
      exact hn
    have htr : unitTrack strategy ov re head pr = false := by
      cases htr' : unitTrack strategy ov re head pr with
      | false => rfl
      | true =>
        rw [processUnit_meta, htr'] at h1
        simp at h1
    have hm1 : (processUnit strategy ov re dir head rk pr st).meta = st.meta := by
      rw [processUnit_meta, htr]
      rfl
    have hf1 : (processUnit strategy ov re dir head rk pr st).file = st.file := by
      rw [processUnit_file, htr]
      rfl
    exact ⟨hm.trans hm1, hf.trans hf1⟩

/-! ### Sync-phase lemmas -/

theorem syncRepo_override (g : GEnv) (re : RepoEnv) (repo : Subrepo)
    (s : GitState)
    (h : (truthyStr g.workspaceRoot && truthyOpt repo.workspaceOverride) = true) :
    syncRepo g re repo s =
      { st := s, head := re.overrideHead, usedOverride := true,
        tr := [.symlink repo.dir (repo.workspaceOverride.getD ""),
               .gitRevParseHead repo.dir] } := by
  simp [syncRepo, h]

theorem syncRepo_noupdate (g : GEnv) (re : RepoEnv) (repo : Subrepo)
    (s : GitState)
    (hov : (truthyStr g.workspaceRoot && truthyOpt repo.workspaceOverride) = false)
    (hex : s.dirExists = true)
    (hno : (shouldUpdate re repo s && truthyStr (resolvedRef repo s)) = false) :
    syncRepo g re repo s =
      { st := s, head := s.head, usedOverride := false,
        tr := (if repo.ref.isSome then [] else [.gitRevParseBranch repo.dir]) ++
          [.gitRevParseHead repo.dir] ++
          (if isCommitHash (resolvedRef repo s) then []
            else [.gitLsRemote repo.dir (resolvedRef repo s)]) ++
          [.gitRevParseHead repo.dir] } := by
  simp [syncRepo, hov, hex, hno]

theorem syncRepo_update (g : GEnv) (re : RepoEnv) (repo : Subrepo)
    (s : GitState)
    (hov : (truthyStr g.workspaceRoot && truthyOpt repo.workspaceOverride) = false)
    (hex : s.dirExists = true)
    (hyes : (shouldUpdate re repo s && truthyStr (resolvedRef repo s)) = true) :
    syncRepo g re repo s =
      { st := { s with head := re.refTip (resolvedRef repo s) },
        head := re.refTip (resolvedRef repo s), usedOverride := false,
        tr := (if repo.ref.isSome then [] else [.gitRevParseBranch repo.dir]) ++
          [.gitRevParseHead repo.dir] ++
          (if isCommitHash (resolvedRef repo s) then []
            else [.gitLsRemote repo.dir (resolvedRef repo s)]) ++
          [.gitFetch repo.dir (resolvedRef repo s), .gitReset repo.dir,
            .gitRevParseHead repo.dir] } := by
  simp [syncRepo, hov, hex, hyes]

theorem syncRepo_clone_ref (g : GEnv) (re : RepoEnv) (repo : Subrepo)
    (s : GitState) (r : String)
    (hov : (truthyStr g.workspaceRoot && truthyOpt repo.workspaceOverride) = false)
    (hex : s.dirExists = false) (hr : repo.ref = some r) (hr' : r ≠ "") :
    syncRepo g re repo s =
      { st := { dirExists := true, head := re.refTip r, branch := re.defaultBranch },
        head := re.refTip r, usedOverride := false,
        tr := [.gitClone repo.remote repo.dir, .gitFetch repo.dir r,
               .gitReset repo.dir, .gitRevParseHead repo.dir] } := by
  unfold syncRepo
  rw [hov]
  simp [hex, hr, truthyOpt, hr']

theorem syncRepo_clone_noref (g : GEnv) (re : RepoEnv) (repo : Subrepo)
    (s : GitState)
    (hov : (truthyStr g.workspaceRoot && truthyOpt repo.workspaceOverride) = false)
    (hex : s.dirExists = false) (hr : truthyOpt repo.ref = false) :
    syncRepo g re repo s =
      { st := { dirExists := true, head := re.defaultTip, branch := re.defaultBranch },
        head := re.defaultTip, usedOverride := false,
        tr := [.gitClone repo.remote repo.dir, .gitRevParseHead repo.dir] } := by
  simp [syncRepo, hov, hex, hr]

theorem not_heavy_of_not_fetch_clone (op : Op) (h : isHeavyOp op = false) :
    isFetchOrReset op = false := by
  cases op <;> simp_all [isHeavyOp, isFetchOrReset]

theorem coherent_refTip_expected (re : RepoEnv) (repo : Subrepo) (s : GitState)
    (hco : re.coherent) :
    re.refTip (resolvedRef repo s) = expectedHead re repo s := by
  obtain ⟨hc1, hc2, _, _⟩ := hco
  unfold expectedHead
  cases hh : isCommitHash (resolvedRef repo s) with
  | true => simp [hc1 _ hh]
  | false => simp [hc2 _ hh]

theorem syncRepo_settled (g : GEnv) (re : RepoEnv) (repo : Subrepo)
    (s : GitState) (hco : re.coherent) :
    (syncRepo g re repo (syncRepo g re repo s).st).st = (syncRepo g re repo s).st ∧
    (syncRepo g re repo (syncRepo g re repo s).st).head = (syncRepo g re repo s).head ∧
    (syncRepo g re repo (syncRepo g re repo s).st).usedOverride
      = (syncRepo g re repo s).usedOverride ∧
    ∀ op ∈ (syncRepo g re repo (syncRepo g re repo s).st).tr, isHeavyOp op = false := by
  cases hov : (truthyStr g.workspaceRoot && truthyOpt repo.workspaceOverride) with
  | true =>
    rw [syncRepo_override g re repo s hov, syncRepo_override g re repo _ hov]
    refine ⟨rfl, rfl, rfl, ?_⟩
    intro op hop
    simp at hop
    rcases hop with h | h <;> subst h <;> rfl
  | false =>
    have second_fixed : ∀ s' : GitState, s'.dirExists = true →
        (shouldUpdate re repo s' && truthyStr (resolvedRef repo s')) = false →
        (syncRepo g re repo s').st = s' ∧ (syncRepo g re repo s').head = s'.head ∧
        (syncRepo g re repo s').usedOverride = false ∧
        ∀ op ∈ (syncRepo g re repo s').tr, isHeavyOp op = false := by
      intro s' hex' hno'
      rw [syncRepo_noupdate g re repo s' hov hex' hno']
      refine ⟨rfl, rfl, rfl, ?_⟩
      intro op hop
      simp only [List.mem_append] at hop
      rcases hop with ((h | h) | h) | h
      · split at h <;> simp at h
        subst h
        rfl
      · simp at h
        subst h
        rfl
      · split at h <;> simp at h
        subst h
        rfl
      · simp at h
        subst h
        rfl
    cases hex : s.dirExists with
    | true =>
      cases hup : (shouldUpdate re repo s && truthyStr (resolvedRef repo s)) with
      | false =>
        rw [syncRepo_noupdate g re repo s hov hex hup]
        exact second_fixed s hex hup
      | true =>
        rw [syncRepo_update g re repo s hov hex hup]
        set s' : GitState := { s with head := re.refTip (resolvedRef repo s) } with hs'
        have hexp' : expectedHead re repo s' = expectedHead re repo s := rfl
        have hth := coherent_refTip_expected re repo s hco
        have hsu : shouldUpdate re repo s' = false := by
          unfold shouldUpdate
          apply decide_eq_false
          intro hcon
          exact hcon (by
            show re.refTip (resolvedRef repo s) = expectedHead re repo s'
            rw [hexp']
            exact hth)
        have hnoup : (shouldUpdate re repo s' && truthyStr (resolvedRef repo s')) = false := by
          simp [hsu]
        exact second_fixed s' hex hnoup
    | false =>
      cases href : truthyOpt repo.ref with
      | true =>
        obtain ⟨r, hr⟩ : ∃ r, repo.ref = some r := by
          cases hrr : repo.ref with
          | none => rw [hrr] at href; simp [truthyOpt] at href
          | some r => exact ⟨r, rfl⟩
        have hr' : r ≠ "" := by
          rw [hr] at href
          simpa [truthyOpt] using href
        rw [syncRepo_clone_ref g re repo s r hov hex hr hr']
        set s' : GitState :=
          { dirExists := true, head := re.refTip r, branch := re.defaultBranch } with hs'
        have hrref : resolvedRef repo s' = r := by simp [resolvedRef, hr]
        have hth : re.refTip r = expectedHead re repo s' := by
          have h0 := coherent_refTip_expected re repo s' hco
          rwa [hrref] at h0
        have hsu : shouldUpdate re repo s' = false := by
          unfold shouldUpdate
          apply decide_eq_false
          intro hcon
          exact hcon hth
        have hnoup : (shouldUpdate re repo s' && truthyStr (resolvedRef repo s')) = false := by
          simp [hsu]
        have h2 := second_fixed s' rfl hnoup
        exact ⟨h2.1, by rw [h2.2.1], h2.2.2.1, h2.2.2.2⟩
      | false =>
        rw [syncRepo_clone_noref g re repo s hov hex href]
        set s' : GitState :=
          { dirExists := true, head := re.defaultTip, branch := re.defaultBranch } with hs'
        obtain ⟨hc1, hc2, hc3, hc4⟩ := hco
        have hnoup : (shouldUpdate re repo s' && truthyStr (resolvedRef repo s')) = false := by
          cases hrr : repo.ref with
          | none =>
            have hrref : resolvedRef repo s' = re.defaultBranch := by
              simp [resolvedRef, hrr]
            have hsu : shouldUpdate re repo s' = false := by
              unfold shouldUpdate
              apply decide_eq_false
              intro hcon
              apply hcon
              show re.defaultTip = expectedHead re repo s'
              unfold expectedHead
              rw [hrref, hc3]
              simp only [Bool.false_eq_true, if_false]
              exact hc4.symm
            simp [hsu]
          | some r =>
            have hr0 : r = "" := by
              rw [hrr] at href
              simpa [truthyOpt] using href
            have hrref : resolvedRef repo s' = "" := by
              simp [resolvedRef, hrr, hr0]
            rw [hrref]
            simp [truthyStr]
        have h2 := second_fixed s' rfl hnoup
        exact ⟨h2.1, by rw [h2.2.1], h2.2.2.1, h2.2.2.2⟩

/-! ### Repo-level lemmas -/

theorem processRepo_git (g : GEnv) (inst : RepoInst) (m f : Metadata) :
    (processRepo g inst m f).git = (instSync g inst).st := rfl

theorem processRepo_meta_eq (g : GEnv) (inst : RepoInst) (m f : Metadata) :
    (processRepo g inst m f).meta =
      (foldUnits (instStrategy inst) (instOv g inst) inst.env inst.spec.dir
        (instHead g inst) (instKeyUsed g inst) (instUnits g inst)
        ⟨m, f, (instSync g inst).tr⟩).meta := rfl

theorem processRepo_file_eq (g : GEnv) (inst : RepoInst) (m f : Metadata) :
    (processRepo g inst m f).file =
      (foldUnits (instStrategy inst) (instOv g inst) inst.env inst.spec.dir
        (instHead g inst) (instKeyUsed g inst) (instUnits g inst)
        ⟨m, f, (instSync g inst).tr⟩).file := rfl

theorem processRepo_tr_eq (g : GEnv) (inst : RepoInst) (m f : Metadata) :
    (processRepo g inst m f).tr =
      (foldUnits (instStrategy inst) (instOv g inst) inst.env inst.spec.dir
        (instHead g inst) (instKeyUsed g inst) (instUnits g inst)
        ⟨m, f, (instSync g inst).tr⟩).tr ++
      (inst.spec.inheritDependencies.map
        (inheritDep inst.env (instHead g inst) inst.spec.dir)).flatten ++
      linkFileOps inst.spec.dir inst.spec.linkFiles := rfl

theorem inheritDep_light (re : RepoEnv) (head dir nm : String) :
    ∀ op ∈ inheritDep re head dir nm, isHeavyOp op = false := by
  intro op hop
  cases hpkg : re.pkgJson head (pathJoin "node_modules" nm) with
  | none =>
    simp only [inheritDep, hpkg] at hop
    simp at hop
    subst hop
    rfl
  | some tp =>
    simp only [inheritDep, hpkg] at hop
    simp only [List.mem_append, List.mem_singleton] at hop
    rcases hop with hop | hop
    · subst hop
      rfl
    · cases hbin : tp.bin with
      | none =>
        simp only [hbin] at hop
        simp at hop
      | some sm =>
        cases sm with
        | str b =>
          simp only [hbin] at hop
          cases hname : tp.name with
          | none =>
            simp only [hname] at hop
            simp at hop
          | some n =>
            simp only [hname] at hop
            by_cases hn : n = ""
            · rw [if_pos hn] at hop
              simp at hop
            · rw [if_neg hn] at hop
              simp only [List.mem_singleton] at hop
              subst hop
              rfl
        | map entries =>
          simp only [hbin, List.mem_map] at hop
          obtain ⟨e, _, he⟩ := hop
          subst he
          rfl

theorem linkFileOps_light (dir : String) (lfs : List (String × String)) :
    ∀ op ∈ linkFileOps dir lfs, isHeavyOp op = false := by
  intro op hop
  simp only [linkFileOps, List.mem_map] at hop
  obtain ⟨e, _, he⟩ := hop
  subst he
  rfl

theorem processRepo_sat (g : GEnv) (inst : RepoInst) (m f : Metadata) :
    ∀ pr ∈ instUnits g inst, instUTrack g inst pr = true →
      lookupKey ((processRepo g inst m f).meta.heads.getD []) (instUKey g inst pr)
        = some (instUVal g inst pr) := by
  intro pr hpr htr
  rw [processRepo_meta_eq]
  exact foldUnits_sat (instStrategy inst) (instOv g inst) inst.env inst.spec.dir
    (instHead g inst) (instKeyUsed g inst) (instUnits g inst)
    ⟨m, f, (instSync g inst).tr⟩ pr hpr htr

theorem processRepo_lookup_other (g : GEnv) (inst : RepoInst) (m f : Metadata)
    (k : String) (hk : ∀ x, k ≠ pathJoin (instKeyUsed g inst) x) :
    lookupKey ((processRepo g inst m f).meta.heads.getD []) k =
      lookupKey (m.heads.getD []) k := by
  rw [processRepo_meta_eq]
  exact foldUnits_lookup_other (instStrategy inst) (instOv g inst) inst.env
    inst.spec.dir (instHead g inst) (instKeyUsed g inst) (instUnits g inst)
    ⟨m, f, (instSync g inst).tr⟩ k (fun pr _ => hk pr.path)

theorem processRepo_stable (g : GEnv) (inst : RepoInst) (m f : Metadata)
    (hst : (instSync g inst).st = inst.git)
    (hlight : ∀ op ∈ (instSync g inst).tr, isHeavyOp op = false)
    (hsat : ∀ pr ∈ instUnits g inst, instUTrack g inst pr = true →
      lookupKey (m.heads.getD []) (instUKey g inst pr) = some (instUVal g inst pr)) :
    (processRepo g inst m f).git = inst.git ∧
    (processRepo g inst m f).meta = m ∧
    (processRepo g inst m f).file = f ∧
    ∀ op ∈ (processRepo g inst m f).tr, isHeavyOp op = false := by
  obtain ⟨hm, hf, ht⟩ := foldUnits_stable (instStrategy inst) (instOv g inst)
    inst.env inst.spec.dir (instHead g inst) (instKeyUsed g inst)
    (instUnits g inst) ⟨m, f, (instSync g inst).tr⟩ hsat
  refine ⟨(processRepo_git g inst m f).trans hst,
    (processRepo_meta_eq g inst m f).trans hm,
    (processRepo_file_eq g inst m f).trans hf, ?_⟩
  intro op hop
  rw [processRepo_tr_eq] at hop
  rcases List.mem_append.mp hop with hop | hop
  · rcases List.mem_append.mp hop with hop | hop
    · rcases ht op hop with h | h
      · exact hlight op h
      · exact h
    · rw [List.mem_flatten] at hop
      obtain ⟨l, hl, hop⟩ := hop
      rw [List.mem_map] at hl
      obtain ⟨nm, _, hnm⟩ := hl
      subst hnm
      exact inheritDep_light inst.env (instHead g inst) inst.spec.dir nm op hop
  · exact linkFileOps_light inst.spec.dir inst.spec.linkFiles op hop

theorem processRepo_heads_none (g : GEnv) (inst : RepoInst) (m f : Metadata)
    (hn : (processRepo g inst m f).meta.heads = none) :
    (processRepo g inst m f).meta = m ∧ (processRepo g inst m f).file = f := by
  rw [processRepo_meta_eq] at hn ⊢
  rw [processRepo_file_eq]
  exact foldUnits_heads_none (instStrategy inst) (instOv g inst) inst.env
    inst.spec.dir (instHead g inst) (instKeyUsed g inst) (instUnits g inst)
    ⟨m, f, (instSync g inst).tr⟩ hn

/-! ### Run-level lemmas -/

/-- Two sub-repository instances write to disjoint regions of the metadata
key space. -/
def Sep (g : GEnv) (a b : RepoInst) : Prop :=
  ∀ x y, pathJoin (instKeyUsed g a) x ≠ pathJoin (instKeyUsed g b) y

theorem runRepos_cons_meta (g : GEnv) (i : RepoInst) (rest : List RepoInst)
    (m f : Metadata) :
    (runRepos g (i :: rest) m f).meta =
      (runRepos g rest (processRepo g i m f).meta (processRepo g i m f).file).meta :=
  rfl

theorem runRepos_cons_file (g : GEnv) (i : RepoInst) (rest : List RepoInst)
    (m f : Metadata) :
    (runRepos g (i :: rest) m f).file =
      (runRepos g rest (processRepo g i m f).meta (processRepo g i m f).file).file :=
  rfl

theorem runRepos_cons_tr (g : GEnv) (i : RepoInst) (rest : List RepoInst)
    (m f : Metadata) :
    (runRepos g (i :: rest) m f).tr =
      (processRepo g i m f).tr ++
        (runRepos g rest (processRepo g i m f).meta (processRepo g i m f).file).tr :=
  rfl

theorem runRepos_states (g : GEnv) (insts : List RepoInst) (m f : Metadata) :
    (runRepos g insts m f).states = insts.map (fun i => (instSync g i).st) := by
  induction insts generalizing m f with
  | nil => rfl
  | cons i rest ih => simp [runRepos, ih, processRepo_git]

theorem runRepos_lookup_other (g : GEnv) (insts : List RepoInst)
    (m f : Metadata) (k : String)
    (hk : ∀ i ∈ insts, ∀ x, k ≠ pathJoin (instKeyUsed g i) x) :
    lookupKey ((runRepos g insts m f).meta.heads.getD []) k =
      lookupKey (m.heads.getD []) k := by
  induction insts generalizing m f with
  | nil => rfl
  | cons i rest ih =>
    rw [runRepos_cons_meta,
      ih _ _ (fun b hb => hk b (List.mem_cons_of_mem _ hb)),
      processRepo_lookup_other g i m f k (hk i (List.mem_cons_self _ _))]

theorem runRepos_sat (g : GEnv) (insts : List RepoInst) (m f : Metadata)
    (hsep : insts.Pairwise (Sep g)) :
    ∀ i ∈ insts, ∀ pr ∈ instUnits g i, instUTrack g i pr = true →
      lookupKey ((runRepos g insts m f).meta.heads.getD []) (instUKey g i pr)
        = some (instUVal g i pr) := by
  induction insts generalizing m f with
  | nil =>
    intro i h
    simp at h
  | cons i0 rest ih =>
    rw [List.pairwise_cons] at hsep
    obtain ⟨hhead, htail⟩ := hsep
    intro i hi pr hpr htr
    rcases List.mem_cons.mp hi with he | hm
    · subst he
      rw [runRepos_cons_meta,
        runRepos_lookup_other g rest (processRepo g i m f).meta
          (processRepo g i m f).file (instUKey g i pr)
          (fun b hb x => hhead b hb pr.path x)]
      exact processRepo_sat g i m f pr hpr htr
    · exact ih _ _ htail i hm pr hpr htr

theorem runRepos_stable (g : GEnv) (insts : List RepoInst) (m f : Metadata)
    (hst : ∀ i ∈ insts, (instSync g i).st = i.git)
    (hlight : ∀ i ∈ insts, ∀ op ∈ (instSync g i).tr, isHeavyOp op = false)
    (hsat : ∀ i ∈ insts, ∀ pr ∈ instUnits g i, instUTrack g i pr = true →
      lookupKey (m.heads.getD []) (instUKey g i pr) = some (instUVal g i pr)) :
    (runRepos g insts m f).meta = m ∧ (runRepos g insts m f).file = f ∧
    ∀ op ∈ (runRepos g insts m f).tr, isHeavyOp op = false := by
  induction insts generalizing f with
  | nil => exact ⟨rfl, rfl, by simp [runRepos]⟩
  | cons i0 rest ih =>
    obtain ⟨hg0, hm0, hf0, ht0⟩ := processRepo_stable g i0 m f
      (hst i0 (List.mem_cons_self _ _)) (hlight i0 (List.mem_cons_self _ _))
      (hsat i0 (List.mem_cons_self _ _))
    have ih' := ih f (fun i hi => hst i (List.mem_cons_of_mem _ hi))
      (fun i hi => hlight i (List.mem_cons_of_mem _ hi))
      (fun i hi => hsat i (List.mem_cons_of_mem _ hi))
    rw [runRepos_cons_meta, runRepos_cons_file, runRepos_cons_tr, hm0, hf0]
    refine ⟨ih'.1, ih'.2.1, ?_⟩
    intro op hop
    rcases List.mem_append.mp hop with hop | hop
    · exact ht0 op hop
    · exact ih'.2.2 op hop

theorem runRepos_heads_none (g : GEnv) (insts : List RepoInst) (m f : Metadata)
    (hn : (runRepos g insts m f).meta.heads = none) :
    (runRepos g insts m f).meta = m ∧ (runRepos g insts m f).file = f := by
  induction insts generalizing m f with
  | nil => exact ⟨rfl, rfl⟩
  | cons i0 rest ih =>
    rw [runRepos_cons_meta] at hn ⊢
    rw [runRepos_cons_file]
    obtain ⟨hm, hf⟩ := ih _ _ hn
    have hn0 : (processRepo g i0 m f).meta.heads = none := by
      rw [hm] at hn
      exact hn
    obtain ⟨hm0, hf0⟩ := processRepo_heads_none g i0 m f hn0
    exact ⟨hm.trans hm0, hf.trans hf0⟩

theorem pruneHeads_cons (g : GEnv) (e : String × String)
    (prev acc : List (String × String)) :
    pruneHeads g (e :: prev) acc =
      pruneHeads g prev (if g.pruneKeep e.1 then acc else eraseKey acc e.1) := rfl

theorem pruneHeads_id (g : GEnv) (prev acc : List (String × String))
    (hall : ∀ k, g.pruneKeep k = true) : pruneHeads g prev acc = acc := by
  induction prev generalizing acc with
  | nil => rfl
  | cons e rest ih => rw [pruneHeads_cons, hall e.1, if_pos rfl, ih]

theorem runOnce_states (g : GEnv) (insts : List RepoInst) (file0 : Metadata) :
    (runOnce g insts file0).states = (runRepos g insts file0 file0).states := by
  unfold runOnce
  cases h : (runRepos g insts file0 file0).meta.heads <;> simp [h]

theorem runOnce_file_of_keep (g : GEnv) (insts : List RepoInst)
    (file0 : Metadata) (hkeep : ∀ k, g.pruneKeep k = true) :
    (runOnce g insts file0).file = (runRepos g insts file0 file0).meta := by
  unfold runOnce
  cases h : (runRepos g insts file0 file0).meta.heads with
  | some l =>
    simp only [h, pruneHeads_id g _ _ hkeep]
    cases hm : (runRepos g insts file0 file0).meta with
    | mk heads =>
      rw [hm] at h
      simp at h
      simp [h]
  | none =>
    simp only [h]
    obtain ⟨hm, hf⟩ := runRepos_heads_none g insts file0 file0 h
    rw [hf, hm]

theorem runOnce_tr (g : GEnv) (insts : List RepoInst) (file0 : Metadata) :
    ∀ op ∈ (runOnce g insts file0).tr,
      op ∈ (runRepos g insts file0 file0).tr ∨ isHeavyOp op = false := by
  unfold runOnce
  cases h : (runRepos g insts file0 file0).meta.heads with
  | some l =>
    intro op hop
    simp only [h, List.mem_append, List.mem_singleton] at hop
    rcases hop with hop | hop
    · exact Or.inl hop
    · subst hop
      exact Or.inr rfl
  | none =>
    intro op hop
    simp only [h] at hop
    exact Or.inl hop

/-! ### Transport lemmas for re-running from the states a run left behind -/

theorem shifted_sync_st (g : GEnv) (i : RepoInst) (hco : i.env.coherent) :
    (instSync g { i with git := (instSync g i).st }).st = (instSync g i).st :=
  (syncRepo_settled g i.env i.spec i.git hco).1

theorem shifted_instHead (g : GEnv) (i : RepoInst) (hco : i.env.coherent) :
    instHead g { i with git := (instSync g i).st } = instHead g i :=
  (syncRepo_settled g i.env i.spec i.git hco).2.1

theorem shifted_instOv (g : GEnv) (i : RepoInst) (hco : i.env.coherent) :
    instOv g { i with git := (instSync g i).st } = instOv g i :=
  (syncRepo_settled g i.env i.spec i.git hco).2.2.1

theorem shifted_light (g : GEnv) (i : RepoInst) (hco : i.env.coherent) :
    ∀ op ∈ (instSync g { i with git := (instSync g i).st }).tr,
      isHeavyOp op = false :=
  (syncRepo_settled g i.env i.spec i.git hco).2.2.2

theorem shifted_instKeyUsed (g : GEnv) (i : RepoInst) (hco : i.env.coherent) :
    instKeyUsed g { i with git := (instSync g i).st } = instKeyUsed g i := by
  have hov := shifted_instOv g i hco
  unfold instOv at hov
  simp only [instKeyUsed, usedRepoKey, hov]

theorem shifted_instUnits (g : GEnv) (i : RepoInst) (hco : i.env.coherent) :
    instUnits g { i with git := (instSync g i).st } = instUnits g i := by
  have hh := shifted_instHead g i hco
  simp only [instUnits, instStrategy, hh]

theorem shifted_instUTrack (g : GEnv) (i : RepoInst) (hco : i.env.coherent)
    (pr : PkgRef) :
    instUTrack g { i with git := (instSync g i).st } pr = instUTrack g i pr := by
  have hh := shifted_instHead g i hco
  have hov := shifted_instOv g i hco
  simp only [instUTrack, instStrategy, hh, hov]

theorem shifted_instUKey (g : GEnv) (i : RepoInst) (hco : i.env.coherent)
    (pr : PkgRef) :
    instUKey g { i with git := (instSync g i).st } pr = instUKey g i pr := by
  simp only [instUKey, shifted_instKeyUsed g i hco]

theorem shifted_instUVal (g : GEnv) (i : RepoInst) (hco : i.env.coherent)
    (pr : PkgRef) :
    instUVal g { i with git := (instSync g i).st } pr = instUVal g i pr := by
  have hh := shifted_instHead g i hco
  simp only [instUVal, unitVal, hh]

theorem zipWith_update_map (insts : List RepoInst) (h : RepoInst → GitState) :
    insts.zipWith (fun inst s => { inst with git := s }) (insts.map h) =
      insts.map (fun i => { i with git := h i }) := by
  induction insts with
  | nil => rfl
  | cons i rest ih => simp [ih]

theorem reseed_eq_map (g : GEnv) (insts : List RepoInst) (file0 : Metadata) :
    reseed insts (runOnce g insts file0).states =
      insts.map (fun i => { i with git := (instSync g i).st }) := by
  rw [reseed, runOnce_states, runRepos_states]
  exact zipWith_update_map insts _

/-- C1: running the engine twice in succession over the same configuration,
with no upstream changes between the runs (the oracles are unchanged and
coherent, every on-disk package path still exists, and distinct
sub-repositories use non-interfering metadata key prefixes), performs zero
clone, fetch, reset, install and build operations on the second run and
leaves the persisted metadata store byte-identical to its state after the
first run. -/
theorem c1_second_run_idempotent (g : GEnv) (insts : List RepoInst)
    (file0 : Metadata)
    (hco : ∀ inst ∈ insts, inst.env.coherent)
    (hkeep : ∀ k, g.pruneKeep k = true)
    (hsep : insts.Pairwise (Sep g)) :
    (∀ op ∈ (runOnce g (reseed insts (runOnce g insts file0).states)
        (runOnce g insts file0).file).tr, isHeavyOp op = false) ∧
    (runOnce g (reseed insts (runOnce g insts file0).states)
        (runOnce g insts file0).file).file = (runOnce g insts file0).file := by
  have hmap := reseed_eq_map g insts file0
  have hfile1 : (runOnce g insts file0).file = (runRepos g insts file0 file0).meta :=
    runOnce_file_of_keep g insts file0 hkeep
  set M := (runRepos g insts file0 file0).meta with hM
  set insts2 := insts.map (fun i => { i with git := (instSync g i).st }) with hinsts2
  have hsat1 := runRepos_sat g insts file0 file0 hsep
  have hst2 : ∀ i2 ∈ insts2, (instSync g i2).st = i2.git := by
    intro i2 hi2
    rw [hinsts2, List.mem_map] at hi2
    obtain ⟨i, hi, rfl⟩ := hi2
    exact shifted_sync_st g i (hco i hi)
  have hlight2 : ∀ i2 ∈ insts2, ∀ op ∈ (instSync g i2).tr, isHeavyOp op = false := by
    intro i2 hi2
    rw [hinsts2, List.mem_map] at hi2
    obtain ⟨i, hi, rfl⟩ := hi2
    exact shifted_light g i (hco i hi)
  have hsat2 : ∀ i2 ∈ insts2, ∀ pr ∈ instUnits g i2, instUTrack g i2 pr = true →
      lookupKey (M.heads.getD []) (instUKey g i2 pr) = some (instUVal g i2 pr) := by
    intro i2 hi2 pr hpr htr
    rw [hinsts2, List.mem_map] at hi2
    obtain ⟨i, hi, rfl⟩ := hi2
    rw [shifted_instUnits g i (hco i hi)] at hpr
    rw [shifted_instUTrack g i (hco i hi) pr] at htr
    rw [shifted_instUKey g i (hco i hi) pr, shifted_instUVal g i (hco i hi) pr]
    exact hsat1 i hi pr hpr htr
  obtain ⟨hm2, hf2, ht2⟩ := runRepos_stable g insts2 M M hst2 hlight2 hsat2
  constructor
  · intro op hop
    rw [hmap, hfile1] at hop
    rcases runOnce_tr g insts2 M op hop with h | h
    · exact ht2 op h
    · exact h
  · rw [hmap, hfile1, runOnce_file_of_keep g insts2 M hkeep]
    exact hm2

/-! ### Concrete instances for witnesses and counterexamples -/

/-- A small coherent sub-repository environment used by witnesses. -/
def wEnv : RepoEnv :=
  { defaultBranch := "main", defaultTip := "t",
    refTip := fun r => if isCommitHash r then r else "t",
    lsRemote := fun _ => "t",
    overrideHead := "o",
    fileAt := fun _ _ => false,
    pkgJson := fun _ p =>
      if p = "pkg" then
        some { name := some "pkg", dependencies := some [("d", "1")] }
      else none,
    subtreeHead := fun h p => h ++ ":" ++ p,
    repoKeyPlain := "rk", repoKeyOverride := "rko" }

/-- A host context outside any workspace, with every pruned path present. -/
def wG : GEnv := { workspaceRoot := "", pruneKeep := fun _ => true }

/-- A configuration tracking branch `main` with one sub-package. -/
def wSpec : Subrepo :=
  { dir := "d", remote := "R", ref := some "main", packages := [.bare "pkg"] }

/-- A single configured sub-repository, not yet cloned. -/
def wInst : RepoInst :=
  { spec := wSpec, env := wEnv,
    git := { dirExists := false, head := "", branch := "" } }

set_option maxRecDepth 2000 in
theorem string_take_t : ("t" : String).take 40 = "t" := by decide

theorem wEnv_coherent : wEnv.coherent := by
  refine ⟨fun r hr => ?_, fun r hr => ?_, by decide, string_take_t⟩
  · simp only [wEnv]
    rw [hr]
    simp
  · simp only [wEnv]
    rw [hr]
    simp only [Bool.false_eq_true, if_false]
    exact string_take_t.symm

/-- C6: for a sub-repository whose working tree already exists and whose
local HEAD equals the resolved target commit, the sync phase performs no
fetch and no reset and leaves the working tree state untouched. -/
theorem c6_head_equal_no_fetch_reset (g : GEnv) (re : RepoEnv) (repo : Subrepo)
    (s : GitState)
    (hov : (truthyStr g.workspaceRoot && truthyOpt repo.workspaceOverride) = false)
    (hex : s.dirExists = true)
    (heq : s.head = expectedHead re repo s) :
    (syncRepo g re repo s).st = s ∧
    ∀ op ∈ (syncRepo g re repo s).tr, isFetchOrReset op = false := by
  have hsu : shouldUpdate re repo s = false := by
    unfold shouldUpdate
    simp [heq]
  have hno : (shouldUpdate re repo s && truthyStr (resolvedRef repo s)) = false := by
    simp [hsu]
  rw [syncRepo_noupdate g re repo s hov hex hno]
  refine ⟨rfl, ?_⟩
  intro op hop
  simp only [List.mem_append] at hop
  rcases hop with ((h | h) | h) | h
  · split at h <;> simp at h
    subst h
    rfl
  · simp at h
    subst h
    rfl
  · split at h <;> simp at h
    subst h
    rfl
  · simp at h
    subst h
    rfl

/-- The working-tree state used by the C6 witness: already cloned and
sitting at the tip that `ls-remote` reports for `main`. -/
def c6State : GitState := { dirExists := true, head := "t", branch := "x" }

/-- Witness for C6 at a concrete configuration. -/
theorem c6_witness :
    (syncRepo wG wEnv wSpec c6State).st = c6State ∧
    ∀ op ∈ (syncRepo wG wEnv wSpec c6State).tr, isFetchOrReset op = false :=
  c6_head_equal_no_fetch_reset wG wEnv wSpec c6State (by decide) rfl
    (by set_option maxRecDepth 2000 in decide)

/-- The host context of the C4 scenario: inside a recognized workspace. -/
def c4G : GEnv := { workspaceRoot := "w", pruneKeep := fun _ => true }

/-- A sub-repository configured with a workspace override path and a branch
ref. -/
def c4Spec : Subrepo :=
  { dir := "d", remote := "R", ref := some "main", workspaceOverride := some "o" }

/-- The C4 sub-repository instance. -/
def c4Inst : RepoInst :=
  { spec := c4Spec, env := wEnv,
    git := { dirExists := true, head := "h", branch := "b" } }

set_option maxRecDepth 10000 in
/-- C4 counterexample: with a workspace override configured and the host
inside a recognized workspace, the claim says no version-control operation
of any kind runs for the sub-repository, yet the run still executes
`git rev-parse HEAD` against it. -/
theorem c4_counterexample :
    truthyStr c4G.workspaceRoot = true ∧
    c4Spec.workspaceOverride.isSome = true ∧
    Op.gitRevParseHead "d" ∈ (runOnce c4G [c4Inst] ⟨none⟩).tr := by
  decide

/-- C4 amended: with a workspace override configured and the host inside a
recognized workspace, the sync phase performs no clone, no fetch, no reset
and no remote-ref query for that sub-repository and leaves its git state
untouched; it creates exactly the link from the spec dir to the override
path, followed by one read-only HEAD query. -/
theorem c4_override_no_sync (g : GEnv) (re : RepoEnv) (repo : Subrepo)
    (s : GitState)
    (hov : (truthyStr g.workspaceRoot && truthyOpt repo.workspaceOverride) = true) :
    (syncRepo g re repo s).st = s ∧
    (syncRepo g re repo s).tr =
      [Op.symlink repo.dir (repo.workspaceOverride.getD ""),
       Op.gitRevParseHead repo.dir] ∧
    ∀ op ∈ (syncRepo g re repo s).tr,
      isHeavyOp op = false ∧ isLsRemote op = false := by
  rw [syncRepo_override g re repo s hov]
  refine ⟨rfl, rfl, ?_⟩
  intro op hop
  simp at hop
  rcases hop with h | h <;> subst h <;> exact ⟨rfl, rfl⟩

/-- Witness for the amended C4 at a concrete configuration. -/
theorem c4_amended_witness :
    (syncRepo c4G wEnv c4Spec c4Inst.git).st = c4Inst.git ∧
    (syncRepo c4G wEnv c4Spec c4Inst.git).tr =
      [Op.symlink c4Spec.dir (c4Spec.workspaceOverride.getD ""),
       Op.gitRevParseHead c4Spec.dir] ∧
    ∀ op ∈ (syncRepo c4G wEnv c4Spec c4Inst.git).tr,
      isHeavyOp op = false ∧ isLsRemote op = false :=
  c4_override_no_sync c4G wEnv c4Spec c4Inst.git (by decide)

set_option maxRecDepth 10000 in
/-- C5 counterexample: a run over a not-yet-cloned sub-repository with the
movable ref `main` performs no remote-ref query at all, against the claim
that a non-hash ref has its tip re-resolved via a lightweight remote-ref
query on every run. -/
theorem c5_counterexample :
    isCommitHash "main" = false ∧
    (runOnce wG [wInst] ⟨none⟩).tr.all (fun op => !(isLsRemote op)) = true := by
  decide

/-- C5 amended: a ref matching the 40-character lowercase-hex commit-hash
pattern is never passed to a remote-ref query by the sync phase; any other
ref is re-resolved via `ls-remote` on every run in which the working tree
already exists and no workspace override applies; on a fresh clone the ref
tip is obtained by fetching the ref instead. -/
theorem c5_ref_resolution (g : GEnv) (re : RepoEnv) (repo : Subrepo)
    (s : GitState) :
    (isCommitHash (resolvedRef repo s) = true →
      ∀ op ∈ (syncRepo g re repo s).tr, isLsRemote op = false) ∧
    ((truthyStr g.workspaceRoot && truthyOpt repo.workspaceOverride) = false →
      s.dirExists = true → isCommitHash (resolvedRef repo s) = false →
      Op.gitLsRemote repo.dir (resolvedRef repo s) ∈ (syncRepo g re repo s).tr) ∧
    ((truthyStr g.workspaceRoot && truthyOpt repo.workspaceOverride) = false →
      s.dirExists = false → ∀ r, repo.ref = some r → r ≠ "" →
      Op.gitFetch repo.dir r ∈ (syncRepo g re repo s).tr) := by
  refine ⟨?_, ?_, ?_⟩
  · intro hhash op hop
    cases hov : (truthyStr g.workspaceRoot && truthyOpt repo.workspaceOverride) with
    | true =>
      rw [syncRepo_override g re repo s hov] at hop
      simp at hop
      rcases hop with h | h <;> subst h <;> rfl
    | false =>
      cases hex : s.dirExists with
      | true =>
        cases hup : (shouldUpdate re repo s && truthyStr (resolvedRef repo s)) with
        | false =>
          rw [syncRepo_noupdate g re repo s hov hex hup] at hop
          simp only [List.mem_append] at hop
          rcases hop with ((h | h) | h) | h
          · split at h <;> simp at h
            subst h
            rfl
          · simp at h
            subst h
            rfl
          · rw [if_pos hhash] at h
            simp at h
          · simp at h
            subst h
            rfl
        | true =>
          rw [syncRepo_update g re repo s hov hex hup] at hop
          simp only [List.mem_append] at hop
          rcases hop with ((h | h) | h) | h
          · split at h <;> simp at h
            subst h
            rfl
          · simp at h
            subst h
            rfl
          · rw [if_pos hhash] at h
            simp at h
          · simp at h
            rcases h with h | h | h <;> subst h <;> rfl
      | false =>
        cases href : truthyOpt repo.ref with
        | true =>
          obtain ⟨r, hr⟩ : ∃ r, repo.ref = some r := by
            cases hrr : repo.ref with
            | none =>
              rw [hrr] at href
              simp [truthyOpt] at href
            | some r => exact ⟨r, rfl⟩
          have hr' : r ≠ "" := by
            rw [hr] at href
            simpa [truthyOpt] using href
          rw [syncRepo_clone_ref g re repo s r hov hex hr hr'] at hop
          simp at hop
          rcases hop with h | h | h | h <;> subst h <;> rfl
        | false =>
          rw [syncRepo_clone_noref g re repo s hov hex href] at hop
          simp at hop
          rcases hop with h | h <;> subst h <;> rfl
  · intro hov hex hnothash
    cases hup : (shouldUpdate re repo s && truthyStr (resolvedRef repo s)) with
    | false =>
      rw [syncRepo_noupdate g re repo s hov hex hup]
      simp [hnothash]
    | true =>
      rw [syncRepo_update g re repo s hov hex hup]
      simp [hnothash]
  · intro hov hex r hr hr'
    rw [syncRepo_clone_ref g re repo s r hov hex hr hr']
    simp

/-- A full 40-character lowercase-hex commit id. -/
def hash40 : String := "0123456789abcdef0123456789abcdef01234567"

/-- A sub-repository pinned to an immutable commit hash. -/
def c5HashSpec : Subrepo := { dir := "d", remote := "R", ref := some hash40 }

/-- Witness for the amended C5: at concrete inputs, a hash ref yields no
remote-ref query, a branch ref on an existing tree yields one, and a branch
ref on a fresh clone is fetched. -/
theorem c5_witness :
    (∀ op ∈ (syncRepo wG wEnv c5HashSpec c6State).tr, isLsRemote op = false) ∧
    Op.gitLsRemote "d" "main" ∈ (syncRepo wG wEnv wSpec c6State).tr ∧
    Op.gitFetch "d" "main" ∈ (syncRepo wG wEnv wSpec wInst.git).tr :=
  ⟨(c5_ref_resolution wG wEnv c5HashSpec c6State).1 (by decide),
   (c5_ref_resolution wG wEnv wSpec c6State).2.1 (by decide) rfl (by decide),
   (c5_ref_resolution wG wEnv wSpec wInst.git).2.2 (by decide) rfl "main" rfl
     (by decide)⟩

/-- C10: inheriting a dependency whose descriptor has a string-valued `bin`
entry but no `name` still links the dependency directory, creates no
executable link, and emits no warning. -/
theorem c10_inherit_bin_without_name (re : RepoEnv) (head dir nm b : String)
    (tp : PackageJson)
    (hpkg : re.pkgJson head (pathJoin "node_modules" nm) = some tp)
    (hbin : tp.bin = some (.str b)) (hname : tp.name = none) :
    inheritDep re head dir nm =
      [Op.symlink (pathJoin "node_modules" nm)
        (pathJoin dir (pathJoin "node_modules" nm))] := by
  simp [inheritDep, hpkg, hbin, hname]

/-- An environment whose `node_modules/x` package has a string `bin` and no
`name`. -/
def c10Env : RepoEnv :=
  { wEnv with
    pkgJson := fun _ p =>
      if p = "node_modules/x" then some { name := none, bin := some (.str "cli.js") }
      else none }

/-- Witness for C10 at a concrete environment. -/
theorem c10_witness :
    inheritDep c10Env "h" "d" "x" =
      [Op.symlink (pathJoin "node_modules" "x")
        (pathJoin "d" (pathJoin "node_modules" "x"))] :=
  c10_inherit_bin_without_name c10Env "h" "d" "x" "cli.js"
    { name := none, bin := some (.str "cli.js") } rfl rfl rfl

theorem foldUnits_tr_shift (strategy : Strategy) (ov : Bool) (re : RepoEnv)
    (dir head rk : String) (prs : List PkgRef) (m f : Metadata) (t : List Op) :
    foldUnits strategy ov re dir head rk prs ⟨m, f, t⟩ =
      ⟨(foldUnits strategy ov re dir head rk prs ⟨m, f, []⟩).meta,
       (foldUnits strategy ov re dir head rk prs ⟨m, f, []⟩).file,
       t ++ (foldUnits strategy ov re dir head rk prs ⟨m, f, []⟩).tr⟩ := by
  induction prs generalizing m f t with
  | nil => simp [foldUnits]
  | cons pr rest ih =>
    rw [foldUnits_cons, foldUnits_cons,
      processUnit_tr_shift strategy ov re dir head rk pr m f t,
      ih (processUnit strategy ov re dir head rk pr ⟨m, f, []⟩).meta
        (processUnit strategy ov re dir head rk pr ⟨m, f, []⟩).file
        (t ++ (processUnit strategy ov re dir head rk pr ⟨m, f, []⟩).tr),
      ih (processUnit strategy ov re dir head rk pr ⟨m, f, []⟩).meta
        (processUnit strategy ov re dir head rk pr ⟨m, f, []⟩).file
        (processUnit strategy ov re dir head rk pr ⟨m, f, []⟩).tr]
    simp

theorem foldUnits_append (strategy : Strategy) (ov : Bool) (re : RepoEnv)
    (dir head rk : String) (l1 l2 : List PkgRef) (st : StepOut) :
    foldUnits strategy ov re dir head rk (l1 ++ l2) st =
      foldUnits strategy ov re dir head rk l2
        (foldUnits strategy ov re dir head rk l1 st) := by
  simp [foldUnits, List.foldl_append]

/-- C9: a unit whose package descriptor cannot be read is skipped with a
warning and nothing else: it triggers no install, build, link or metadata
write, and the remaining units are processed exactly as they would have
been had the unit not been configured. -/
theorem c9_bad_descriptor_skipped (strategy : Strategy) (ov : Bool)
    (re : RepoEnv) (dir head rk : String) (us vs : List PkgRef) (pr : PkgRef)
    (m f : Metadata) (hbad : re.pkgJson head pr.path = none) :
    (∀ st : StepOut, processUnit strategy ov re dir head rk pr st =
      { st with tr := st.tr ++ [.warnPkgRead (pathJoin dir pr.path)] }) ∧
    (foldUnits strategy ov re dir head rk (us ++ pr :: vs) ⟨m, f, []⟩).meta =
      (foldUnits strategy ov re dir head rk (us ++ vs) ⟨m, f, []⟩).meta ∧
    (foldUnits strategy ov re dir head rk (us ++ pr :: vs) ⟨m, f, []⟩).file =
      (foldUnits strategy ov re dir head rk (us ++ vs) ⟨m, f, []⟩).file ∧
    ∃ t2,
      (foldUnits strategy ov re dir head rk (us ++ vs) ⟨m, f, []⟩).tr =
        (foldUnits strategy ov re dir head rk us ⟨m, f, []⟩).tr ++ t2 ∧
      (foldUnits strategy ov re dir head rk (us ++ pr :: vs) ⟨m, f, []⟩).tr =
        (foldUnits strategy ov re dir head rk us ⟨m, f, []⟩).tr ++
          [.warnPkgRead (pathJoin dir pr.path)] ++ t2 := by
  have h1 : ∀ st : StepOut, processUnit strategy ov re dir head rk pr st =
      { st with tr := st.tr ++ [.warnPkgRead (pathJoin dir pr.path)] } :=
    fun st => processUnit_none strategy ov re dir head rk pr st hbad
  refine ⟨h1, ?_⟩
  rw [foldUnits_append strategy ov re dir head rk us (pr :: vs),
    foldUnits_append strategy ov re dir head rk us vs, foldUnits_cons, h1]
  set stU := foldUnits strategy ov re dir head rk us ⟨m, f, []⟩ with hstU
  have heta : stU = ⟨stU.meta, stU.file, stU.tr⟩ := rfl
  rw [heta, foldUnits_tr_shift, foldUnits_tr_shift strategy ov re dir head rk vs
    stU.meta stU.file stU.tr]
  refine ⟨rfl, rfl,
    (foldUnits strategy ov re dir head rk vs ⟨stU.meta, stU.file, []⟩).tr,
    rfl, ?_⟩
  simp

/-- The start state of the C9 witness: empty metadata, empty trace. -/
def c9St : StepOut := { meta := ⟨none⟩, file := ⟨none⟩, tr := [] }

/-- Witness for C9 at a concrete environment: the unit `bad` has no
readable descriptor, the sibling `pkg` does. -/
theorem c9_witness :
    (∀ st : StepOut, processUnit Strategy.default false wEnv "d" "h" "rk"
        (.bare "bad") st =
      { st with tr := st.tr ++ [.warnPkgRead (pathJoin "d" "bad")] }) ∧
    (foldUnits Strategy.default false wEnv "d" "h" "rk"
        ([] ++ PkgRef.bare "bad" :: [PkgRef.bare "pkg"]) c9St).meta =
      (foldUnits Strategy.default false wEnv "d" "h" "rk"
        ([] ++ [PkgRef.bare "pkg"]) c9St).meta ∧
    (foldUnits Strategy.default false wEnv "d" "h" "rk"
        ([] ++ PkgRef.bare "bad" :: [PkgRef.bare "pkg"]) c9St).file =
      (foldUnits Strategy.default false wEnv "d" "h" "rk"
        ([] ++ [PkgRef.bare "pkg"]) c9St).file ∧
    ∃ t2,
      (foldUnits Strategy.default false wEnv "d" "h" "rk"
        ([] ++ [PkgRef.bare "pkg"]) c9St).tr =
        (foldUnits Strategy.default false wEnv "d" "h" "rk" [] c9St).tr ++ t2 ∧
      (foldUnits Strategy.default false wEnv "d" "h" "rk"
        ([] ++ PkgRef.bare "bad" :: [PkgRef.bare "pkg"]) c9St).tr =
        (foldUnits Strategy.default false wEnv "d" "h" "rk" [] c9St).tr ++
          [.warnPkgRead (pathJoin "d" "bad")] ++ t2 :=
  c9_bad_descriptor_skipped Strategy.default false wEnv "d" "h" "rk" []
    [PkgRef.bare "pkg"] (.bare "bad") ⟨none⟩ ⟨none⟩ rfl

theorem pruneHeads_keep (g : GEnv) (prev acc : List (String × String))
    (k : String) (hk : g.pruneKeep k = true) :
    lookupKey (pruneHeads g prev acc) k = lookupKey acc k := by
  induction prev generalizing acc with
  | nil => rfl
  | cons e rest ih =>
    rw [pruneHeads_cons]
    by_cases hke : g.pruneKeep e.1 = true
    · rw [if_pos hke, ih]
    · rw [if_neg hke, ih]
      apply eraseKey_lookup_ne
      intro hcon
      rw [hcon] at hk
      exact hke hk

theorem pruneHeads_lookup_none (g : GEnv) (prev acc : List (String × String))
    (k : String) (h : lookupKey acc k = none) :
    lookupKey (pruneHeads g prev acc) k = none := by
  induction prev generalizing acc with
  | nil => exact h
  | cons e rest ih =>
    rw [pruneHeads_cons]
    by_cases hke : g.pruneKeep e.1 = true
    · rw [if_pos hke]
      exact ih acc h
    · rw [if_neg hke]
      apply ih
      by_cases hek : e.1 = k
      · rw [hek]
        exact eraseKey_lookup_self acc k
      · rw [eraseKey_lookup_ne acc e.1 k (fun hc => hek hc.symm)]
        exact h

theorem pruneHeads_gone (g : GEnv) (prev acc : List (String × String))
    (k : String) (hk : g.pruneKeep k = false)
    (hmem : ∃ v, (k, v) ∈ prev) :
    lookupKey (pruneHeads g prev acc) k = none := by
  induction prev generalizing acc with
  | nil =>
    obtain ⟨v, hv⟩ := hmem
    simp at hv
  | cons e rest ih =>
    obtain ⟨v, hv⟩ := hmem
    rw [pruneHeads_cons]
    rcases List.mem_cons.mp hv with he | hm
    · have he1 : e.1 = k := by rw [← he]
      rw [he1, hk]
      simp only [Bool.false_eq_true, if_false]
      apply pruneHeads_lookup_none
      exact eraseKey_lookup_self acc k
    · exact ih _ ⟨v, hm⟩

set_option maxRecDepth 2000 in
/-- C2 counterexample: with an empty configuration (the package removed)
but with its files still on disk, the persisted key survives the run,
against the claim that it is absent afterwards. -/
theorem c2_counterexample :
    wG.pruneKeep "k" = true ∧
    lookupKey ((runOnce wG ([] : List RepoInst) ⟨some [("k", "h")]⟩).file.heads.getD [])
      "k" = some "h" := by
  decide

/-- C2 amended: for a package no longer present in the configuration, the
end-of-run prune removes its persisted key only when its recorded on-disk
path no longer exists; while the files still exist on disk the key remains
with its old value. -/
theorem c2_prune_by_disk (g : GEnv) (file0 : Metadata) (k : String) :
    (g.pruneKeep k = false →
      lookupKey ((runOnce g [] file0).file.heads.getD []) k = none) ∧
    (g.pruneKeep k = true →
      lookupKey ((runOnce g [] file0).file.heads.getD []) k =
        lookupKey (file0.heads.getD []) k) := by
  constructor
  · intro hk
    cases hh : file0.heads with
    | none => simp [runOnce, runRepos, hh, lookupKey]
    | some l =>
      simp only [runOnce, runRepos, hh, Option.getD_some]
      cases hl : lookupKey l k with
      | none => exact pruneHeads_lookup_none g l l k hl
      | some v => exact pruneHeads_gone g l l k hk ⟨v, lookupKey_mem l k v hl⟩
  · intro hk
    cases hh : file0.heads with
    | none => simp [runOnce, runRepos, hh]
    | some l =>
      simp only [runOnce, runRepos, hh, Option.getD_some]
      exact pruneHeads_keep g l l k hk

/-- C8: for a unit whose key has no prior metadata entry, the change check
reports changed, so under the ordinary gates (no workspace interference,
not the root of an install-only repo) the unit installs exactly once iff it
declares dependencies, builds exactly once iff it declares a build script,
and a metadata entry for its key is recorded afterwards. -/
theorem c8_first_run_always_executes (strategy : Strategy) (ov : Bool)
    (re : RepoEnv) (dir head rk : String) (pr : PkgRef) (m f : Metadata)
    (pkg : PackageJson)
    (hpkg : re.pkgJson head pr.path = some pkg)
    (hnone : lookupKey (m.heads.getD []) (unitKey rk pr) = none)
    (hws : if pr.path = "." then ov = false
      else re.fileAt head "pnpm-workspace.yaml" = false)
    (hro : notInstallOnlyRoot strategy pr.path = true)
    (hwork : (pkg.dependencies.isSome || pkg.devDependencies.isSome) = true ∨
      hasBuildScript pkg = true) :
    unitChanged re head rk pr m = true ∧
    (processUnit strategy ov re dir head rk pr ⟨m, f, []⟩).tr.countP isInstallOp =
      (if pkg.dependencies.isSome || pkg.devDependencies.isSome then 1 else 0) ∧
    (processUnit strategy ov re dir head rk pr ⟨m, f, []⟩).tr.countP isBuildOp =
      (if hasBuildScript pkg then 1 else 0) ∧
    lookupKey ((processUnit strategy ov re dir head rk pr ⟨m, f, []⟩).meta.heads.getD [])
      (unitKey rk pr) = some (unitVal re head pr) := by
  have hch : unitChanged re head rk pr m = true := by
    simp [unitChanged, hnone]
  have hgi : installGate ov re head pr.path pkg =
      (pkg.dependencies.isSome || pkg.devDependencies.isSome) := by
    unfold installGate
    by_cases hp : pr.path = "."
    · rw [if_pos hp] at hws ⊢
      simp [hws]
    · rw [if_neg hp] at hws ⊢
      simp [hws]
  have htrack : unitTrack strategy ov re head pr = true := by
    rw [unitTrack_some strategy ov re head pr pkg hpkg, hgi, hro]
    rcases hwork with h | h
    · simp [h]
    · simp [h]
  have countP_ite_nil : ∀ (p : Op → Bool) (c : Prop) (inst : Decidable c)
      (l : List Op), (if c then l else []).countP p = if c then l.countP p else 0 := by
    intro p c inst l
    split <;> simp
  refine ⟨hch, ?_, ?_,
    processUnit_lookup_self strategy ov re dir head rk pr ⟨m, f, []⟩ htrack⟩
  · simp only [processUnit, hpkg, unitKey, unitVal] at hnone ⊢
    rw [hgi, hro]
    simp only [hnone]
    simp [List.countP_append, List.countP_cons, countP_ite_nil, isInstallOp]
  · simp only [processUnit, hpkg, unitKey, unitVal] at hnone ⊢
    rw [hgi, hro]
    simp only [hnone]
    simp [List.countP_append, List.countP_cons, countP_ite_nil, isBuildOp]

/-- Witness for C8 at a concrete unit with dependencies and no build
script, starting from empty metadata. -/
theorem c8_witness :
    unitChanged wEnv "h" "rk" (.bare "pkg") ⟨none⟩ = true ∧
    (processUnit Strategy.default false wEnv "d" "h" "rk" (.bare "pkg")
      ⟨⟨none⟩, ⟨none⟩, []⟩).tr.countP isInstallOp = 1 ∧
    (processUnit Strategy.default false wEnv "d" "h" "rk" (.bare "pkg")
      ⟨⟨none⟩, ⟨none⟩, []⟩).tr.countP isBuildOp = 0 ∧
    lookupKey ((processUnit Strategy.default false wEnv "d" "h" "rk" (.bare "pkg")
      ⟨⟨none⟩, ⟨none⟩, []⟩).meta.heads.getD []) (unitKey "rk" (.bare "pkg")) =
      some (unitVal wEnv "h" (.bare "pkg")) :=
  c8_first_run_always_executes Strategy.default false wEnv "d" "h" "rk"
    (.bare "pkg") ⟨none⟩ ⟨none⟩
    { name := some "pkg", dependencies := some [("d", "1")] }
    rfl rfl (by decide) (by decide) (Or.inl (by decide))

/-- The possible operations a single package unit can contribute to the
trace. -/
def unitOpShape (dir : String) (pr : PkgRef) (op : Op) : Prop :=
  op = .warnPkgRead (pathJoin dir pr.path) ∨ op = .gitLog dir pr.path ∨
  (∃ a b, op = .pnpmInstall (pathJoin dir pr.path) a b) ∨
  op = .pnpmBuild (pathJoin dir pr.path) ∨
  (∃ n, op = .symlink (pathJoin "node_modules" n) (pathJoin dir pr.path)) ∨
  op = .saveMetadata

theorem processUnit_tr_mem (strategy : Strategy) (ov : Bool) (re : RepoEnv)
    (dir head rk : String) (pr : PkgRef) (st : StepOut) :
    ∀ op ∈ (processUnit strategy ov re dir head rk pr st).tr,
      op ∈ st.tr ∨ unitOpShape dir pr op := by
  intro op hop
  cases hpkg : re.pkgJson head pr.path with
  | none =>
    rw [processUnit_none strategy ov re dir head rk pr st hpkg] at hop
    simp only [List.mem_append, List.mem_singleton] at hop
    rcases hop with h | h
    · exact Or.inl h
    · exact Or.inr (Or.inl h)
  | some pkg =>
    simp only [processUnit, hpkg, List.mem_append] at hop
    rcases hop with ((((h | h) | h) | h) | h) | h
    · exact Or.inl h
    · simp only [List.mem_singleton] at h
      exact Or.inr (Or.inr (Or.inl h))
    · right
      split at h
      · simp only [List.mem_singleton] at h
        exact Or.inr (Or.inr (Or.inl ⟨_, _, h⟩))
      · simp at h
    · right
      split at h
      · simp only [List.mem_singleton] at h
        exact Or.inr (Or.inr (Or.inr (Or.inl h)))
      · simp at h
    · right
      split at h
      · simp only [List.mem_singleton] at h
        exact Or.inr (Or.inr (Or.inr (Or.inr (Or.inl ⟨_, h⟩))))
      · simp at h
    · right
      split at h
      · simp only [List.mem_singleton] at h
        exact Or.inr (Or.inr (Or.inr (Or.inr (Or.inr h))))
      · simp at h

theorem foldUnits_tr_mem (strategy : Strategy) (ov : Bool) (re : RepoEnv)
    (dir head rk : String) (prs : List PkgRef) (st : StepOut) :
    ∀ op ∈ (foldUnits strategy ov re dir head rk prs st).tr,
      op ∈ st.tr ∨ ∃ pr ∈ prs, unitOpShape dir pr op := by
  induction prs generalizing st with
  | nil => exact fun op hop => Or.inl hop
  | cons pr rest ih =>
    intro op hop
    rw [foldUnits_cons] at hop
    rcases ih (processUnit strategy ov re dir head rk pr st) op hop with h | h
    · rcases processUnit_tr_mem strategy ov re dir head rk pr st op h with h' | h'
      · exact Or.inl h'
      · exact Or.inr ⟨pr, List.mem_cons_self _ _, h'⟩
    · obtain ⟨pr', hpr', hsh⟩ := h
      exact Or.inr ⟨pr', List.mem_cons_of_mem _ hpr', hsh⟩

theorem foldUnits_tr_mono (strategy : Strategy) (ov : Bool) (re : RepoEnv)
    (dir head rk : String) (prs : List PkgRef) (st : StepOut) (op : Op)
    (h : op ∈ st.tr) : op ∈ (foldUnits strategy ov re dir head rk prs st).tr := by
  rw [show st = ⟨st.meta, st.file, st.tr⟩ from rfl,
    foldUnits_tr_shift strategy ov re dir head rk prs st.meta st.file st.tr]
  exact List.mem_append_left _ h

theorem processUnit_installOnly_root_tr (ov : Bool) (re : RepoEnv)
    (dir head rk : String) (st : StepOut) :
    ∀ op ∈ (processUnit Strategy.installOnly ov re dir head rk (.bare ".") st).tr,
      op ∈ st.tr ∨ op = .warnPkgRead (pathJoin dir ".") ∨ op = .gitLog dir "." ∨
      (∃ a b, op = .pnpmInstall (pathJoin dir ".") a b) ∨ op = .saveMetadata := by
  intro op hop
  cases hpkg : re.pkgJson head (PkgRef.path (.bare ".")) with
  | none =>
    rw [processUnit_none Strategy.installOnly ov re dir head rk (.bare ".") st hpkg] at hop
    simp only [List.mem_append, List.mem_singleton] at hop
    rcases hop with h | h
    · exact Or.inl h
    · exact Or.inr (Or.inl h)
  | some pkg =>
    have hgate2 : notInstallOnlyRoot Strategy.installOnly (PkgRef.path (.bare ".")) = false := by
      simp [notInstallOnlyRoot, PkgRef.path]
    simp only [processUnit, hpkg, hgate2, Bool.false_and, Bool.and_false,
      Bool.false_eq_true, if_false, List.append_nil, List.mem_append] at hop
    rcases hop with ((h | h) | h) | h
    · exact Or.inl h
    · simp only [List.mem_singleton] at h
      exact Or.inr (Or.inr (Or.inl h))
    · split at h
      · simp only [List.mem_singleton] at h
        exact Or.inr (Or.inr (Or.inr (Or.inl ⟨_, _, h⟩)))
      · simp at h
    · split at h
      · simp only [List.mem_singleton] at h
        exact Or.inr (Or.inr (Or.inr (Or.inr h)))
      · simp at h

/-- C7: root package strategy semantics. With `ignore` the root package is
not processed at all: it is dropped from the unit list, its metadata key is
left untouched, and no install, build or link targets the root directory,
whatever its descriptor declares. With `install-only` the root package is
never built and never linked, while its dependencies are installed under
the ordinary gates. With `default` install, build and link are all
performed for the root package under the ordinary gates. -/
theorem c7_root_strategy_semantics (ov : Bool) (re : RepoEnv)
    (dir head rk : String) (repo : Subrepo) (m f : Metadata)
    (hp : ∀ pr ∈ repo.packages, pr.path ≠ ".") :
    (unitRefs Strategy.ignore re head repo = repo.packages) ∧
    (lookupKey ((foldUnits Strategy.ignore ov re dir head rk
        (unitRefs Strategy.ignore re head repo) ⟨m, f, []⟩).meta.heads.getD [])
        (pathJoin rk ".") = lookupKey (m.heads.getD []) (pathJoin rk ".")) ∧
    (∀ op ∈ (foldUnits Strategy.ignore ov re dir head rk
        (unitRefs Strategy.ignore re head repo) ⟨m, f, []⟩).tr,
      (∀ a b, op ≠ .pnpmInstall dir a b) ∧ op ≠ .pnpmBuild dir ∧
        ∀ src, op ≠ .symlink src dir) ∧
    (∀ op ∈ (foldUnits Strategy.installOnly ov re dir head rk
        (unitRefs Strategy.installOnly re head repo) ⟨m, f, []⟩).tr,
      op ≠ .pnpmBuild dir ∧ ∀ src, op ≠ .symlink src dir) ∧
    (∀ pkg : PackageJson, re.pkgJson head "." = some pkg →
      re.fileAt head "package.json" = true →
      (pkg.dependencies.isSome || pkg.devDependencies.isSome) = true →
      ov = false →
      lookupKey (m.heads.getD []) (pathJoin rk ".") ≠ some (re.subtreeHead head ".") →
      ∃ a b, Op.pnpmInstall dir a b ∈ (foldUnits Strategy.installOnly ov re dir
        head rk (unitRefs Strategy.installOnly re head repo) ⟨m, f, []⟩).tr) ∧
    (∀ (pkg : PackageJson) (nm : String), re.pkgJson head "." = some pkg →
      re.fileAt head "package.json" = true →
      (pkg.dependencies.isSome || pkg.devDependencies.isSome) = true →
      hasBuildScript pkg = true → pkg.name = some nm → nm ≠ "" →
      ov = false →
      lookupKey (m.heads.getD []) (pathJoin rk ".") ≠ some (re.subtreeHead head ".") →
      (∃ a b, Op.pnpmInstall dir a b ∈ (foldUnits Strategy.default ov re dir
        head rk (unitRefs Strategy.default re head repo) ⟨m, f, []⟩).tr) ∧
      Op.pnpmBuild dir ∈ (foldUnits Strategy.default ov re dir head rk
        (unitRefs Strategy.default re head repo) ⟨m, f, []⟩).tr ∧
      Op.symlink (pathJoin "node_modules" nm) dir ∈ (foldUnits Strategy.default
        ov re dir head rk (unitRefs Strategy.default re head repo) ⟨m, f, []⟩).tr) := by
  have hunits_ignore : unitRefs Strategy.ignore re head repo = repo.packages := by
    simp [unitRefs]
  have hsub_shape : ∀ pr ∈ repo.packages, ∀ op : Op, unitOpShape dir pr op →
      (∀ a b, op ≠ Op.pnpmInstall dir a b) ∧ op ≠ Op.pnpmBuild dir ∧
        ∀ src, op ≠ Op.symlink src dir := by
    intro pr hpr op hsh
    have hdir : pathJoin dir pr.path ≠ dir := pathJoin_ne_base dir pr.path (hp pr hpr)
    rcases hsh with h | h | ⟨a, b, h⟩ | h | ⟨n, h⟩ | h <;> subst h
    · exact ⟨fun a b => by simp, by simp, fun src => by simp⟩
    · exact ⟨fun a b => by simp, by simp, fun src => by simp⟩
    · refine ⟨fun a' b' hcon => ?_, by simp, fun src => by simp⟩
      injection hcon with h1 h2 h3
      exact hdir h1
    · refine ⟨fun a b => by simp, fun hcon => ?_, fun src => by simp⟩
      injection hcon with h1
      exact hdir h1
    · refine ⟨fun a b => by simp, by simp, fun src hcon => ?_⟩
      injection hcon with h1 h2
      exact hdir h2
    · exact ⟨fun a b => by simp, by simp, fun src => by simp⟩
  refine ⟨hunits_ignore, ?_, ?_, ?_, ?_, ?_⟩
  · rw [hunits_ignore]
    apply foldUnits_lookup_other
    intro pr hpr hcon
    exact hp pr hpr (pathJoin_left_cancel rk "." pr.path hcon).symm
  · intro op hop
    rw [hunits_ignore] at hop
    rcases foldUnits_tr_mem Strategy.ignore ov re dir head rk repo.packages
      ⟨m, f, []⟩ op hop with h | ⟨pr, hpr, hsh⟩
    · simp at h
    · exact hsub_shape pr hpr op hsh
  · intro op hop
    by_cases hroot : Strategy.installOnly ≠ Strategy.ignore ∧
        re.fileAt head "package.json" = true
    · have hunits : unitRefs Strategy.installOnly re head repo =
          PkgRef.bare "." :: repo.packages := by
        unfold unitRefs
        rw [if_pos hroot]
        rfl
      rw [hunits, foldUnits_cons] at hop
      rcases foldUnits_tr_mem Strategy.installOnly ov re dir head rk repo.packages
        _ op hop with h | ⟨pr, hpr, hsh⟩
      · rcases processUnit_installOnly_root_tr ov re dir head rk ⟨m, f, []⟩ op h
          with h' | h' | h' | ⟨a, b, h'⟩ | h'
        · simp at h'
        · subst h'
          exact ⟨by simp, fun src => by simp⟩
        · subst h'
          exact ⟨by simp, fun src => by simp⟩
        · subst h'
          exact ⟨by simp, fun src => by simp⟩
        · subst h'
          exact ⟨by simp, fun src => by simp⟩
      · exact ⟨(hsub_shape pr hpr op hsh).2.1, (hsub_shape pr hpr op hsh).2.2⟩
    · have hunits : unitRefs Strategy.installOnly re head repo = repo.packages := by
        unfold unitRefs
        rw [if_neg hroot]
        rfl
      rw [hunits] at hop
      rcases foldUnits_tr_mem Strategy.installOnly ov re dir head rk repo.packages
        ⟨m, f, []⟩ op hop with h | ⟨pr, hpr, hsh⟩
      · simp at h
      · exact ⟨(hsub_shape pr hpr op hsh).2.1, (hsub_shape pr hpr op hsh).2.2⟩
  · intro pkg hp0 hjson hd hov hch
    have hcond : Strategy.installOnly ≠ Strategy.ignore ∧
        re.fileAt head "package.json" = true := ⟨by decide, hjson⟩
    have hunits : unitRefs Strategy.installOnly re head repo =
        PkgRef.bare "." :: repo.packages := by
      unfold unitRefs
      rw [if_pos hcond]
      rfl
    have hch' : lookupKey (m.heads.getD []) rk ≠ some (re.subtreeHead head ".") := by
      simpa [pathJoin_dot_right] using hch
    rw [hunits, foldUnits_cons]
    refine ⟨!(re.fileAt head (pathJoin "." "pnpm-lock.yaml")),
      (!(re.fileAt head "pnpm-workspace.yaml")) &&
        (!(re.fileAt head (pathJoin "." "pnpm-workspace.yaml"))),
      foldUnits_tr_mono Strategy.installOnly ov re dir head rk
        repo.packages _ _ ?_⟩
    simp only [processUnit, PkgRef.path, hp0, pathJoin_dot_right, pathJoin_dot_left,
      hov, hd]
    simp [installGate, hd, hch']
  · intro pkg nm hp0 hjson hd hb hname hnm hov hch
    have hcond : Strategy.default ≠ Strategy.ignore ∧
        re.fileAt head "package.json" = true := ⟨by decide, hjson⟩
    have hunits : unitRefs Strategy.default re head repo =
        PkgRef.bare "." :: repo.packages := by
      unfold unitRefs
      rw [if_pos hcond]
      rfl
    have hch' : lookupKey (m.heads.getD []) rk ≠ some (re.subtreeHead head ".") := by
      simpa [pathJoin_dot_right] using hch
    rw [hunits]
    refine ⟨⟨!(re.fileAt head (pathJoin "." "pnpm-lock.yaml")),
      (!(re.fileAt head "pnpm-workspace.yaml")) &&
        (!(re.fileAt head (pathJoin "." "pnpm-workspace.yaml"))), ?_⟩, ?_, ?_⟩ <;>
      rw [foldUnits_cons] <;>
      apply foldUnits_tr_mono Strategy.default ov re dir head rk repo.packages <;>
      simp only [processUnit, PkgRef.path, hp0, pathJoin_dot_right, pathJoin_dot_left,
        hov, hd, hb, hname] <;>
      simp [installGate, hd, hch', hnm, truthyOpt, notInstallOnlyRoot, hasBuildScript]

/-- An environment whose root package declares a name, dependencies and a
build script. -/
def c7Env : RepoEnv :=
  { wEnv with
    fileAt := fun _ p => decide (p = "package.json"),
    pkgJson := fun _ p =>
      if p = "." then
        some { name := some "root", dependencies := some [("d", "1")],
               scripts := some [("build", "tsc")] }
      else none }

/-- The root descriptor used by the C7 witness. -/
def c7Pkg : PackageJson :=
  { name := some "root", dependencies := some [("d", "1")],
    scripts := some [("build", "tsc")] }

/-- A configuration with only a root package. -/
def c7Repo : Subrepo := { dir := "d", remote := "R" }

/-- Witness for C7 at a concrete configuration: under `ignore` the root is
dropped from the unit list; under `install-only` its dependencies are
installed; under `default` it is built and linked. -/
theorem c7_witness :
    (unitRefs Strategy.ignore c7Env "h" c7Repo = c7Repo.packages) ∧
    (∃ a b, Op.pnpmInstall "d" a b ∈ (foldUnits Strategy.installOnly false c7Env
      "d" "h" "rk" (unitRefs Strategy.installOnly c7Env "h" c7Repo)
      ⟨⟨none⟩, ⟨none⟩, []⟩).tr) ∧
    Op.pnpmBuild "d" ∈ (foldUnits Strategy.default false c7Env "d" "h" "rk"
      (unitRefs Strategy.default c7Env "h" c7Repo) ⟨⟨none⟩, ⟨none⟩, []⟩).tr ∧
    Op.symlink (pathJoin "node_modules" "root") "d" ∈
      (foldUnits Strategy.default false c7Env "d" "h" "rk"
        (unitRefs Strategy.default c7Env "h" c7Repo) ⟨⟨none⟩, ⟨none⟩, []⟩).tr := by
  have T := c7_root_strategy_semantics false c7Env "d" "h" "rk" c7Repo ⟨none⟩ ⟨none⟩
    (by simp [c7Repo])
  have hd := T.2.2.2.2.2 c7Pkg "root" rfl rfl (by decide) (by decide) rfl
    (by decide) rfl (by simp [lookupKey])
  exact ⟨T.1,
    T.2.2.2.2.1 c7Pkg rfl rfl (by decide) rfl (by simp [lookupKey]),
    hd.2.1, hd.2.2⟩

theorem not_heavy_no_install_build (op : Op) (h : isHeavyOp op = false) :
    (∀ d a b, op ≠ Op.pnpmInstall d a b) ∧ ∀ d, op ≠ Op.pnpmBuild d := by
  cases op <;> simp_all [isHeavyOp]

/-- C3: the head compared and recorded for a package is the hash of the
last commit touching its own subtree, not the overall HEAD.  When the
repository HEAD moves from one commit to another but the subtree of
package P is untouched, P triggers no install and no build, while a
sibling Q whose subtree head no longer matches the recorded value is
installed and built (under the ordinary gates), and the value recorded for
Q is its subtree head. -/
theorem c3_head_scoped_skip (strategy : Strategy) (ov : Bool) (re : RepoEnv)
    (dir h1 h2 rk : String) (P Q : PkgRef) (m f : Metadata)
    (pkgQ : PackageJson)
    (hQpkg : re.pkgJson h2 Q.path = some pkgQ)
    (hne : P.path ≠ Q.path)
    (hprior : lookupKey (m.heads.getD []) (unitKey rk P) =
      some (re.subtreeHead h1 P.path))
    (huntouched : re.subtreeHead h2 P.path = re.subtreeHead h1 P.path)
    (hQchanged : lookupKey (m.heads.getD []) (unitKey rk Q) ≠
      some (re.subtreeHead h2 Q.path))
    (hQdeps : (pkgQ.dependencies.isSome || pkgQ.devDependencies.isSome) = true)
    (hQbuild : hasBuildScript pkgQ = true)
    (hQroot : Q.path ≠ ".")
    (hQws : re.fileAt h2 "pnpm-workspace.yaml" = false) :
    (∀ op ∈ (foldUnits strategy ov re dir h2 rk [P, Q] ⟨m, f, []⟩).tr,
      (∀ a b, op ≠ .pnpmInstall (pathJoin dir P.path) a b) ∧
      op ≠ .pnpmBuild (pathJoin dir P.path)) ∧
    (∃ a b, Op.pnpmInstall (pathJoin dir Q.path) a b ∈
      (foldUnits strategy ov re dir h2 rk [P, Q] ⟨m, f, []⟩).tr) ∧
    Op.pnpmBuild (pathJoin dir Q.path) ∈
      (foldUnits strategy ov re dir h2 rk [P, Q] ⟨m, f, []⟩).tr ∧
    lookupKey ((foldUnits strategy ov re dir h2 rk [P, Q] ⟨m, f, []⟩).meta.heads.getD [])
      (unitKey rk Q) = some (re.subtreeHead h2 Q.path) := by
  have hPl : lookupKey ((⟨m, f, []⟩ : StepOut).meta.heads.getD []) (unitKey rk P) =
      some (unitVal re h2 P) := by
    unfold unitVal
    rw [huntouched]
    exact hprior
  have hfold : foldUnits strategy ov re dir h2 rk [P, Q] ⟨m, f, []⟩ =
      processUnit strategy ov re dir h2 rk Q
        (processUnit strategy ov re dir h2 rk P ⟨m, f, []⟩) := rfl
  set st1 := processUnit strategy ov re dir h2 rk P ⟨m, f, []⟩ with hst1
  have hkQP : unitKey rk Q ≠ unitKey rk P := fun hc =>
    hne (pathJoin_left_cancel rk P.path Q.path hc.symm)
  have hQl1 : lookupKey (st1.meta.heads.getD []) (unitKey rk Q) =
      lookupKey (m.heads.getD []) (unitKey rk Q) :=
    processUnit_lookup_ne strategy ov re dir h2 rk P ⟨m, f, []⟩ (unitKey rk Q) hkQP
  have hQch1 : lookupKey (st1.meta.heads.getD []) (unitKey rk Q) ≠
      some (re.subtreeHead h2 Q.path) := by
    rw [hQl1]
    exact hQchanged
  have hPlight : ∀ op ∈ st1.tr, isHeavyOp op = false := by
    intro op hop
    have hch : (unitTrack strategy ov re h2 P &&
        unitChanged re h2 rk P (⟨m, f, []⟩ : StepOut).meta) = false := by
      rw [unitChanged_false re h2 rk P _ hPl]
      simp
    rcases processUnit_light strategy ov re dir h2 rk P ⟨m, f, []⟩ hch op hop with h | h
    · simp at h
    · exact h
  have hQgate : installGate ov re h2 Q.path pkgQ = true := by
    unfold installGate
    rw [if_neg hQroot, hQws, hQdeps]
    rfl
  have hQtrack : unitTrack strategy ov re h2 Q = true := by
    rw [unitTrack_some strategy ov re h2 Q pkgQ hQpkg, hQgate]
    rfl
  have hdirne : pathJoin dir P.path ≠ pathJoin dir Q.path := fun hc =>
    hne (pathJoin_left_cancel dir P.path Q.path hc)
  refine ⟨?_, ?_, ?_, ?_⟩
  · intro op hop
    rw [hfold] at hop
    rcases processUnit_tr_mem strategy ov re dir h2 rk Q st1 op hop with h | hsh
    · have hl := hPlight op h
      exact ⟨fun a b => (not_heavy_no_install_build op hl).1 _ a b,
        (not_heavy_no_install_build op hl).2 _⟩
    · rcases hsh with h | h | ⟨a, b, h⟩ | h | ⟨n, h⟩ | h <;> subst h
      · exact ⟨fun a b => by simp, by simp⟩
      · exact ⟨fun a b => by simp, by simp⟩
      · refine ⟨fun a' b' hcon => ?_, by simp⟩
        injection hcon with e1 e2 e3
        exact hdirne e1.symm
      · refine ⟨fun a b => by simp, fun hcon => ?_⟩
        injection hcon with e1
        exact hdirne e1.symm
      · refine ⟨fun a b => by simp, by simp⟩
      · exact ⟨fun a b => by simp, by simp⟩
  · rw [hfold]
    refine ⟨!(re.fileAt h2 (pathJoin Q.path "pnpm-lock.yaml")),
      (!(re.fileAt h2 "pnpm-workspace.yaml")) &&
        (!(re.fileAt h2 (pathJoin Q.path "pnpm-workspace.yaml"))), ?_⟩
    simp only [processUnit, hQpkg]
    simp only [unitKey, unitVal] at hQch1
    simp [hQch1, hQgate]
  · rw [hfold]
    simp only [processUnit, hQpkg]
    simp only [unitKey, unitVal] at hQch1
    simp [hQch1, hQbuild, notInstallOnlyRoot, hQroot]
  · rw [hfold]
    exact processUnit_lookup_self strategy ov re dir h2 rk Q st1 hQtrack

/-- The two-package environment of the C3 witness: the subtree head of
package `p` is the same at both repository heads, that of `q` moves with
the head. -/
def c3Env : RepoEnv :=
  { wEnv with
    pkgJson := fun _ p =>
      if p = "p" then some { name := some "p", dependencies := some [("x", "1")] }
      else if p = "q" then
        some { name := some "q", dependencies := some [("x", "1")],
               scripts := some [("build", "b")] }
      else none,
    subtreeHead := fun h p => if p = "p" then "sp" else h ++ ":" ++ p }

/-- Witness for C3: starting from metadata that records the unchanged
subtree head of `p`, a run at the new repository head skips `p` but
installs and builds `q` and records the subtree head of `q`. -/
theorem c3_witness :
    (∀ op ∈ (foldUnits Strategy.default false c3Env "d" "h2" "rk"
        [PkgRef.bare "p", PkgRef.bare "q"]
        ⟨⟨some [("rk/p", "sp")]⟩, ⟨none⟩, []⟩).tr,
      (∀ a b, op ≠ .pnpmInstall (pathJoin "d" "p") a b) ∧
      op ≠ .pnpmBuild (pathJoin "d" "p")) ∧
    (∃ a b, Op.pnpmInstall (pathJoin "d" "q") a b ∈
      (foldUnits Strategy.default false c3Env "d" "h2" "rk"
        [PkgRef.bare "p", PkgRef.bare "q"]
        ⟨⟨some [("rk/p", "sp")]⟩, ⟨none⟩, []⟩).tr) ∧
    Op.pnpmBuild (pathJoin "d" "q") ∈
      (foldUnits Strategy.default false c3Env "d" "h2" "rk"
        [PkgRef.bare "p", PkgRef.bare "q"]
        ⟨⟨some [("rk/p", "sp")]⟩, ⟨none⟩, []⟩).tr ∧
    lookupKey ((foldUnits Strategy.default false c3Env "d" "h2" "rk"
        [PkgRef.bare "p", PkgRef.bare "q"]
        ⟨⟨some [("rk/p", "sp")]⟩, ⟨none⟩, []⟩).meta.heads.getD [])
      (unitKey "rk" (PkgRef.bare "q")) = some (c3Env.subtreeHead "h2" "q") :=
  c3_head_scoped_skip Strategy.default false c3Env "d" "h1" "h2" "rk"
    (PkgRef.bare "p") (PkgRef.bare "q") ⟨some [("rk/p", "sp")]⟩ ⟨none⟩
    { name := some "q", dependencies := some [("x", "1")],
      scripts := some [("build", "b")] }
    rfl (by decide) (by decide) (by decide) (by decide) (by decide)
    (by decide) (by decide) rfl

/-- A host context in which the on-disk path recorded under key `k` no
longer exists. -/
def c2G : GEnv := { workspaceRoot := "", pruneKeep := fun k => decide (k ≠ "k") }

/-- Witness for the amended C2: with the path gone the key is pruned, with
the path still present it survives. -/
theorem c2_witness :
    lookupKey ((runOnce c2G [] ⟨some [("k", "h")]⟩).file.heads.getD []) "k" = none ∧
    lookupKey ((runOnce wG [] ⟨some [("k", "h")]⟩).file.heads.getD []) "k" =
      lookupKey ((⟨some [("k", "h")]⟩ : Metadata).heads.getD []) "k" :=
  ⟨(c2_prune_by_disk c2G ⟨some [("k", "h")]⟩ "k").1 (by decide),
   (c2_prune_by_disk wG ⟨some [("k", "h")]⟩ "k").2 rfl⟩

/-- Witness for C1 at a concrete configuration. -/
theorem c1_witness :
    (∀ op ∈ (runOnce wG (reseed [wInst] (runOnce wG [wInst] ⟨none⟩).states)
        (runOnce wG [wInst] ⟨none⟩).file).tr, isHeavyOp op = false) ∧
    (runOnce wG (reseed [wInst] (runOnce wG [wInst] ⟨none⟩).states)
        (runOnce wG [wInst] ⟨none⟩).file).file = (runOnce wG [wInst] ⟨none⟩).file :=
  c1_second_run_idempotent wG [wInst] ⟨none⟩
    (by
      intro i hi
      rw [List.mem_singleton] at hi
      subst hi
      rw [show wInst.env = wEnv from rfl]
      exact wEnv_coherent)
    (fun _ => rfl)
    (by simp)

end SubrepoInstall
